import Mathlib

set_option maxHeartbeats 1000000

/-!
Verification development for the `quartermaster` crate registry.

Strings are modelled as `List Char` (Rust strings are UTF-8; all the code
under verification manipulates them by characters and, where it slices by
bytes, first checks the string is ASCII, so byte indices and character
indices coincide at every slicing site).  Byte buffers are modelled as
`List Nat` with every byte below 256.

The module `crate_name/forbidden.rs` (the constant `FORBIDDEN_CRATE_NAMES`)
is not part of the provided sources, so every definition that consults it
takes the forbidden list as an explicit parameter; all theorems hold for an
arbitrary forbidden list.
-/

namespace Quartermaster

/-- Rust `char::is_ascii`. -/
def isAsciiChar (c : Char) : Bool := c.toNat < 128

/-- Rust `char::to_lowercase`, restricted to its action on ASCII letters.
(Full Unicode lowercasing differs only on non-ASCII characters, which
`CrateName::new` rejects right after lowercasing.) -/
def rustToLower (c : Char) : Char :=
  if 'A' ≤ c ∧ c ≤ 'Z' then Char.ofNat (c.toNat + 32) else c

/-- Rust `char::is_ascii_alphanumeric` / the crate-name character class
`c.is_ascii_alphanumeric() || c == '_' || c == '-'` from `crate_name.rs`. -/
def allowedNameChar (c : Char) : Bool :=
  (c.isAlpha || c.isDigit) || c = '_' || c = '-'

/-! ### Decimal digits (Rust `u64` `Display` / digit parsing) -/

/-- The decimal digit character for `d < 10`. -/
def digitChar (d : Nat) : Char := Char.ofNat (48 + d)

/-- Digit expansion worker (the first argument is fuel, always called with
fuel at least `n`, so it never runs out). -/
def natToCharsAux : Nat → Nat → List Char
  | 0, _ => []
  | fuel + 1, n => if n = 0 then [] else natToCharsAux fuel (n / 10) ++ [digitChar (n % 10)]

/-- Decimal rendering of a natural number, most significant digit first,
as Rust's `u64: Display` produces it. -/
def natDigitChars (n : Nat) : List Char :=
  if n = 0 then ['0'] else natToCharsAux n n

/-- Numeric value of a decimal digit character. -/
def charDigitVal (c : Char) : Nat := c.toNat - 48

/-- Value of a most-significant-first list of decimal digit characters. -/
def digitsVal (ds : List Char) : Nat :=
  ds.foldl (fun a c => 10 * a + charDigitVal c) 0

/-- Greedy decimal-number parse: consume a maximal nonempty run of ASCII
digits from the front and return its value together with the rest. -/
def parseNat (s : List Char) : Option (Nat × List Char) :=
  match s.takeWhile Char.isDigit with
  | [] => none
  | ds => some (digitsVal ds, s.dropWhile Char.isDigit)

/-- `true` when the list does not start with an ASCII digit (so a greedy
digit parse just before it stops exactly there). -/
def noLeadDigit : List Char → Bool
  | [] => true
  | c :: _ => !c.isDigit

/-! ### semver `Version`

`semver::Version { major, minor, patch, pre, build }`, with the pre-release
and build-metadata segments kept as their raw text.  Equality is structural
(the `semver` crate's `Eq` also distinguishes build metadata). -/

structure Version where
  major : Nat
  minor : Nat
  patch : Nat
  pre : List Char
  build : List Char
deriving DecidableEq, Repr

/-- The character class of semver pre-release/build segments:
dot-separated alphanumeric/hyphen identifiers, kept here as one run. -/
def semverIdentChar (c : Char) : Bool :=
  (c.isAlpha || c.isDigit) || c = '-' || c = '.'

/-- `semver::Version: Display`: `M.m.p`, then `-pre` when the pre-release
is nonempty, then `+build` when the build metadata is nonempty. -/
def Version.display (v : Version) : List Char :=
  natDigitChars v.major ++ '.' :: natDigitChars v.minor ++ '.' :: natDigitChars v.patch
    ++ (if v.pre = [] then [] else '-' :: v.pre)
    ++ (if v.build = [] then [] else '+' :: v.build)

/-- Well-formedness carried by every `semver::Version` the Rust code can
hold: the pre-release and build segments consist of identifier characters
(in particular they contain neither `+` nor a digit-run ambiguity). -/
def Version.WF (v : Version) : Prop :=
  v.pre.all semverIdentChar = true ∧ v.build.all semverIdentChar = true

instance (v : Version) : Decidable v.WF := by unfold Version.WF; infer_instance

/-- Body of the optional `-pre` segment: a maximal nonempty run of
identifier characters. -/
def parsePreAux (r : List Char) : Option (List Char × List Char) :=
  match r.takeWhile semverIdentChar with
  | [] => none
  | p => some (p, r.dropWhile semverIdentChar)

/-- The optional `-pre` segment of a version. -/
def parsePre : List Char → Option (List Char × List Char)
  | '-' :: r => parsePreAux r
  | s => some ([], s)

/-- The optional `+build` tail, which must consume the rest of the input. -/
def parseBuild (s : List Char) : Option (List Char) :=
  match s with
  | [] => some []
  | '+' :: b => if b ≠ [] ∧ b.all semverIdentChar then some b else none
  | _ => none

/-- Expect the character `c` at the front and consume it. -/
def expectChar (c : Char) : List Char → Option (List Char)
  | x :: r => if x = c then some r else none
  | [] => none

/-- `semver::Version::parse` (on the fragment of the grammar this program
exercises): `major.minor.patch` with optional `-pre` and `+build` runs of
identifier characters, consuming the entire input. -/
def versionParse (s : List Char) : Option Version :=
  (parseNat s).bind fun p1 =>
  (expectChar '.' p1.2).bind fun s =>
  (parseNat s).bind fun p2 =>
  (expectChar '.' p2.2).bind fun s =>
  (parseNat s).bind fun p3 =>
  (parsePre p3.2).bind fun p4 =>
  (parseBuild p4.2).map fun build => ⟨p1.1, p2.1, p3.1, p4.1, build⟩

/-- Build a version from its numeric triple (empty pre-release and build). -/
def Version.mkSimple (major minor patch : Nat) : Version := ⟨major, minor, patch, [], []⟩

/-! ### `CrateName` (`src/crate_name.rs`) -/

def MAX_CRATE_NAME_LENGTH : Nat := 64

structure CrateName where
  str : List Char
deriving DecidableEq, Repr

inductive CrateNameError
  | Empty
  | NotASCII
  | ForbiddenChar
  | Forbidden
  | NotAlphabeticFirstChar
  | TooLong
deriving DecidableEq, Repr

/-- `CrateName::new`: lowercase, then check ASCII, nonempty, alphabetic
first character, length at most 64, the character class, and membership in
the forbidden list (a parameter, see the module comment). -/
def CrateName.new (forbiddenNames : List (List Char)) (crate_name : List Char) :
    Except CrateNameError CrateName :=
  let crate_name_lower := crate_name.map rustToLower
  if !crate_name_lower.all isAsciiChar then .error .NotASCII
  else
    match crate_name_lower.head? with
    | none => .error .Empty
    | some first_char =>
      if !first_char.isAlpha then .error .NotAlphabeticFirstChar
      else if MAX_CRATE_NAME_LENGTH < crate_name_lower.length then .error .TooLong
      else if !crate_name_lower.all allowedNameChar then .error .ForbiddenChar
      else if crate_name_lower ∈ forbiddenNames then .error .Forbidden
      else .ok ⟨crate_name_lower⟩

inductive IndexPathError
  | Inconsistent
  | ForbiddenComponent
  | TooFewComponents
  | TooManyComponents
  | CrateName (e : CrateNameError)
deriving DecidableEq, Repr

/-- A component of a filesystem path (`std::path::Component`).  `pfx`
stands for the Windows prefix component. -/
inductive PathComponent
  | rootDir
  | curDir
  | parentDir
  | pfx
  | normal (s : List Char)
deriving DecidableEq, Repr

/-- The per-component check inside `CrateName::from_index_path`: only
normal, ASCII components are allowed. -/
def checkComponent : PathComponent → Except IndexPathError (List Char)
  | .normal c => if c.all isAsciiChar then .ok c else .error .ForbiddenComponent
  | _ => .error .ForbiddenComponent

/-- `collect::<Result<_, _>>()` over the first (at most) three components. -/
def collectComponents : List PathComponent → Except IndexPathError (List (List Char))
  | [] => .ok []
  | c :: rest =>
    match checkComponent c with
    | .error e => .error e
    | .ok s =>
      match collectComponents rest with
      | .error e => .error e
      | .ok ss => .ok (s :: ss)

/-- The `match components.len()` block of `CrateName::from_index_path`:
check the shard components against the final component and return it. -/
def shardCheck : List (List Char) → Except IndexPathError (List Char)
  | [] | [_] => .error .TooFewComponents
  | [c0, c1] =>
    if c0 = ['1'] then
      if c1.length ≠ 1 then .error .Inconsistent else .ok c1
    else if c0 = ['2'] then
      if c1.length ≠ 2 then .error .Inconsistent else .ok c1
    else .error .Inconsistent
  | [c0, c1, c2] =>
    if c0 = ['3'] then
      if c2.length ≠ 3 ∨ c1 ≠ c2.take 1 then .error .Inconsistent else .ok c2
    else
      if c2.length < 4 ∨ c0 ≠ c2.take 2 ∨ c1 ≠ (c2.drop 2).take 2 then .error .Inconsistent
      else .ok c2
  | _ => .error .TooManyComponents

/-- `CrateName::from_index_path`: skip leading root components, take up to
three components (each must be a normal ASCII component), reject a fourth,
then check the shard prefix against the final component and validate it
with `CrateName::new`. -/
def CrateName.from_index_path (forbiddenNames : List (List Char))
    (path : List PathComponent) : Except IndexPathError CrateName :=
  let rest := path.dropWhile (· = PathComponent.rootDir)
  match collectComponents (rest.take 3) with
  | .error e => .error e
  | .ok components =>
    if rest.drop 3 ≠ [] then .error .TooManyComponents
    else
      match shardCheck components with
      | .error e => .error e
      | .ok crate_name =>
        match CrateName.new forbiddenNames crate_name with
        | .ok n => .ok n
        | .error e => .error (.CrateName e)

/-- `CrateName::index_path`, as the list of path components it produces.
(The `0` case is `unreachable!()` in the source; a constructed name is
never empty.) -/
def CrateName.index_path (n : CrateName) : List (List Char) :=
  match n.str.length with
  | 0 => []
  | 1 => [['1'], n.str]
  | 2 => [['2'], n.str]
  | 3 => [['3'], n.str.take 1, n.str]
  | _ + 4 => [n.str.take 2, (n.str.drop 2).take 2, n.str]

/-- `CrateName::crate_path` rendered as its string form with `/`
separators: `{name}/{version}/{name}.crate`. -/
def CrateName.crate_path (n : CrateName) (version : Version) : List Char :=
  n.str ++ '/' :: version.display ++ '/' :: n.str ++ ".crate".data

/-! ### S3 storage object keys (`src/storage/s3.rs`)

`read_crate_file` fetches `RelativePathBuf::from("crates").join(name.crate_path(version))`
while `write_crate_file` puts to `name.crate_path(version)` unprefixed. -/

/-- The object key `S3Storage::read_crate_file` requests. -/
def S3Storage.read_crate_file_key (name : CrateName) (version : Version) : List Char :=
  "crates".data ++ '/' :: name.crate_path version

/-- The object key `S3Storage::write_crate_file` writes to. -/
def S3Storage.write_crate_file_key (name : CrateName) (version : Version) : List Char :=
  name.crate_path version

instance {ε α : Type} [DecidableEq ε] [DecidableEq α] : DecidableEq (Except ε α) := fun x y =>
  match x, y with
  | .ok a, .ok b =>
    match decEq a b with
    | isTrue h => isTrue (by rw [h])
    | isFalse h => isFalse (fun hc => h (by injection hc))
  | .error a, .error b =>
    match decEq a b with
    | isTrue h => isTrue (by rw [h])
    | isFalse h => isFalse (fun hc => h (by injection hc))
  | .ok _, .error _ => isFalse (fun hc => Except.noConfusion hc)
  | .error _, .ok _ => isFalse (fun hc => Except.noConfusion hc)

/-! ### `MinRustVersion` (`src/index.rs`) and the semver comparator grammar -/

/-- `semver::Op` (the comparison operators a comparator can carry). -/
inductive SemverOp
  | exact
  | greater
  | greaterEq
  | less
  | lessEq
  | tilde
  | caret
deriving DecidableEq, Repr

/-- `semver::Comparator` (without build metadata, which the comparator
grammar does not accept). -/
structure Comparator where
  op : SemverOp
  major : Nat
  minor : Option Nat
  patch : Option Nat
  pre : List Char
deriving DecidableEq, Repr

/-- The explicit operator token at the front of a comparator, when present.
When it returns `none`, the `semver` grammar defaults the operator to
caret. -/
def parseOpPrefix : List Char → Option (SemverOp × List Char)
  | [] => none
  | c :: r =>
    if c = '=' then some (.exact, r)
    else if c = '>' then
      match r with
      | '=' :: r2 => some (.greaterEq, r2)
      | _ => some (.greater, r)
    else if c = '<' then
      match r with
      | '=' :: r2 => some (.lessEq, r2)
      | _ => some (.less, r)
    else if c = '~' then some (.tilde, r)
    else if c = '^' then some (.caret, r)
    else none

/-- After `major.minor.patch`: an optional `-pre` run which must end the
input. -/
def comparatorTail4 : List Char → Option (List Char)
  | [] => some []
  | '-' :: r =>
    (parsePreAux r).bind fun p4 =>
    if p4.2 = [] then some p4.1 else none
  | _ => none

/-- After `major.minor`: an optional `.patch` part. -/
def comparatorTail3 : List Char → Option (Option Nat × List Char)
  | [] => some (none, [])
  | '.' :: s3 =>
    (parseNat s3).bind fun p3 =>
    (comparatorTail4 p3.2).map fun pre => (some p3.1, pre)
  | _ => none

/-- After `major`: an optional `.minor` part. -/
def comparatorTail2 : List Char → Option (Option Nat × Option Nat × List Char)
  | [] => some (none, none, [])
  | '.' :: s2 =>
    (parseNat s2).bind fun p2 =>
    (comparatorTail3 p2.2).map fun q => (some p2.1, q)
  | _ => none

/-- The numeric part of a comparator: `major`, then optional `.minor`,
then optional `.patch`, then an optional `-pre` run which must end the
input. -/
def comparatorNums (s : List Char) : Option (Nat × Option Nat × Option Nat × List Char) :=
  (parseNat s).bind fun p1 =>
  (comparatorTail2 p1.2).map fun q => (p1.1, q)

/-- `semver::Comparator::from_str` (on the fragment this program
exercises): an optional operator token, defaulting to caret, followed by
the numeric part. -/
def comparatorParse (s : List Char) : Option Comparator :=
  match parseOpPrefix s with
  | some (op, r) => (comparatorNums r).map fun q => ⟨op, q.1, q.2.1, q.2.2.1, q.2.2.2⟩
  | none => (comparatorNums s).map fun q => ⟨SemverOp.caret, q.1, q.2.1, q.2.2.1, q.2.2.2⟩

/-- `MinRustVersion`: a comparator without the `op`. -/
structure MinRustVersion where
  major : Nat
  minor : Option Nat
  patch : Option Nat
  pre : List Char
deriving DecidableEq, Repr

inductive MinRustVersionError
  | Op
  | Semver
deriving DecidableEq, Repr

/-- `MinRustVersion::from_str`: reject any input containing `^`, parse the
comparator, reject any operator other than the (defaulted) caret. -/
def MinRustVersion.from_str (s : List Char) : Except MinRustVersionError MinRustVersion :=
  if s.contains '^' then .error .Op
  else
    match comparatorParse s with
    | none => .error .Semver
    | some comparator =>
      if comparator.op ≠ SemverOp.caret then .error .Op
      else .ok ⟨comparator.major, comparator.minor, comparator.patch, comparator.pre⟩

/-- `MinRustVersion: Display`: `M`, then `.m` when minor is present, then
`.p` when patch is present, then `-pre` when the pre-release is nonempty
(each inner part rendered only when its enclosing part is present). -/
def MinRustVersion.display (m : MinRustVersion) : List Char :=
  natDigitChars m.major ++
    match m.minor with
    | none => []
    | some minor =>
      '.' :: natDigitChars minor ++
        match m.patch with
        | none => []
        | some patch =>
          '.' :: natDigitChars patch ++ (if m.pre = [] then [] else '-' :: m.pre)

/-- Well-formedness of every `MinRustVersion` the Rust code can hold
(they are built only by `from_str`): patch needs minor, pre needs patch,
and the pre-release consists of identifier characters. -/
def MinRustVersion.WF (m : MinRustVersion) : Prop :=
  (m.minor = none → m.patch = none) ∧ (m.patch = none → m.pre = []) ∧
    m.pre.all semverIdentChar = true

instance (m : MinRustVersion) : Decidable m.WF := by unfold MinRustVersion.WF; infer_instance

/-! ### Index data model (`src/index.rs`, `src/feature_name.rs`)

External crate types are modelled by their canonical text:
`semver::VersionReq` and `url::Url` are kept as the string they serialize
to (their serde round-trip is the identity on such canonical strings). -/

structure FeatureName where
  str : List Char
deriving DecidableEq, Repr

inductive FeatureNameError
  | Empty
  | NotASCII
  | ForbiddenChar
deriving DecidableEq, Repr

/-- `FeatureName::new`: nonempty, ASCII, alphanumeric/`_`/`-` characters
(no lowercasing). -/
def FeatureName.new (feature_name : List Char) : Except FeatureNameError FeatureName :=
  if feature_name = [] then .error .Empty
  else if !feature_name.all isAsciiChar then .error .NotASCII
  else if !feature_name.all allowedNameChar then .error .ForbiddenChar
  else .ok ⟨feature_name⟩

inductive DependencyKind
  | dev
  | build
  | normal
deriving DecidableEq, Repr

/-- `IndexDependency` from `src/index.rs`. -/
structure IndexDependency where
  name : List Char
  req : List Char
  features : List (List Char)
  optional : Bool
  default_features : Bool
  target : Option (List Char)
  kind : DependencyKind
  registry : Option (List Char)
  package : Option (List Char)
deriving DecidableEq, Repr

/-- `IndexEntry` from `src/index.rs`.  The `features` map (`BTreeMap`) is
modelled as an association list ordered strictly by key. -/
structure IndexEntry where
  name : CrateName
  vers : Version
  deps : List IndexDependency
  cksum : List Char
  features : List (FeatureName × List (List Char))
  yanked : Bool
  links : Option (List Char)
  rust_version : Option MinRustVersion
deriving DecidableEq, Repr

/-- `IndexFile`: the ordered entries of one package's index file. -/
structure IndexFile where
  entries : List IndexEntry
deriving DecidableEq, Repr

/-! ### Error responses (`src/error.rs`, `src/storage.rs`) -/

/-- `ErrorResponse`: an HTTP status plus the `detail` strings of the
response body's `errors` array. -/
structure ErrorResponse where
  status : Nat
  errors : List (List Char)
deriving DecidableEq, Repr

/-- `ErrorResponse::from_status`. -/
def ErrorResponse.from_status (status : Nat) : ErrorResponse := ⟨status, []⟩

/-- `ErrorResponse::not_found` (the cause is only logged). -/
def ErrorResponse.not_found : ErrorResponse := ErrorResponse.from_status 404

/-- `ErrorResponse::internal_server_error` (the cause is only logged). -/
def ErrorResponse.internal_server_error : ErrorResponse := ErrorResponse.from_status 500

/-- `storage::Error` (payloads dropped; the `s3`-feature variants map to
the same responses as `Io`). -/
inductive StorageErr
  | NotFound
  | Io
  | IndexFile
deriving DecidableEq, Repr

/-- `impl From<storage::Error> for ErrorResponse`. -/
def errorResponseOfStorage : StorageErr → ErrorResponse
  | .NotFound => ⟨404, ["Crate not found".data]⟩
  | .Io | .IndexFile => ⟨500, ["Error fetching file".data]⟩

/-! ### Storage state and the registry handlers (`src/main.rs`)

The storage backend is modelled as two finite maps (index files by name,
archives by name and version) together with a fault assignment saying
which operations fail with an I/O error; handlers also return the list of
storage operations they attempted, in order. -/

structure StorageState where
  indexFiles : CrateName → Option IndexFile
  crateFiles : CrateName → Version → Option (List Nat)

structure Faults where
  indexReadError : CrateName → Bool
  crateWriteError : CrateName → Version → Bool
  indexWriteError : CrateName → Bool

/-- The fault assignment under which every storage operation succeeds. -/
def Faults.none : Faults := ⟨fun _ => false, fun _ _ => false, fun _ => false⟩

/-- A storage operation attempted by a handler. -/
inductive StorageOp
  | readIndex (name : CrateName)
  | writeCrate (name : CrateName) (version : Version)
  | writeIndex (name : CrateName)
deriving DecidableEq, Repr

/-- `Storage::read_index_file`: an injected fault gives `Io`; a missing
file is the one positively-known `NotFound`. -/
def read_index_file (faults : Faults) (st : StorageState) (name : CrateName) :
    Except StorageErr IndexFile :=
  if faults.indexReadError name then .error .Io
  else
    match st.indexFiles name with
    | some file => .ok file
    | none => .error .NotFound

/-- The storage state with `name`'s index file replaced. -/
def updateIndex (st : StorageState) (name : CrateName) (file : IndexFile) : StorageState :=
  { st with indexFiles := fun p => if p = name then some file else st.indexFiles p }

/-- The storage state with the archive for `(name, version)` replaced. -/
def updateCrate (st : StorageState) (name : CrateName) (version : Version)
    (contents : List Nat) : StorageState :=
  { st with crateFiles := fun p w =>
      if p = name ∧ w = version then some contents else st.crateFiles p w }

/-- `Storage::write_crate_file`. -/
def write_crate_file (faults : Faults) (st : StorageState) (name : CrateName)
    (version : Version) (contents : List Nat) : Except StorageErr StorageState :=
  if faults.crateWriteError name version then .error .Io
  else .ok (updateCrate st name version contents)

/-- `Storage::write_index_file`. -/
def write_index_file (faults : Faults) (st : StorageState) (name : CrateName)
    (index_file : IndexFile) : Except StorageErr StorageState :=
  if faults.indexWriteError name then .error .Io
  else .ok (updateIndex st name index_file)

/-- Outcome of one handler execution: its HTTP result, the storage state
afterwards, and the storage operations attempted, in order. -/
structure HandlerOutcome (α : Type) where
  result : Except ErrorResponse α
  state : StorageState
  trace : List StorageOp

/-! #### Publish -/

/-- `PublishDependency` from `src/main.rs` (the upload form of a
dependency). -/
structure PublishDependency where
  name : List Char
  version_req : List Char
  features : List (List Char)
  optional : Bool
  default_features : Bool
  target : Option (List Char)
  kind : DependencyKind
  registry : Option (List Char)
  explicit_name_in_toml : Option (List Char)
deriving DecidableEq, Repr

/-- `PublishRequest` from `src/main.rs` (badges are string-to-string
maps). -/
structure PublishRequest where
  name : CrateName
  vers : Version
  deps : List PublishDependency
  features : List (FeatureName × List (List Char))
  authors : List (List Char)
  description : Option (List Char)
  documentation : Option (List Char)
  homepage : Option (List Char)
  readme : Option (List Char)
  readme_file : Option (List Char)
  keywords : List (List Char)
  categories : List (List Char)
  license : Option (List Char)
  license_file : Option (List Char)
  repository : Option (List Char)
  badges : Option (List (List Char × List (List Char × List Char)))
  links : Option (List Char)
  rust_version : Option MinRustVersion
deriving DecidableEq, Repr

structure PublishWarnings where
  invalid_categories : List (List Char)
  invalid_badges : List (List Char)
  other : List (List Char)
deriving DecidableEq, Repr

structure PublishResponse where
  warnings : PublishWarnings
deriving DecidableEq, Repr

structure YankResponse where
  ok : Bool
deriving DecidableEq, Repr

structure UnyankResponse where
  ok : Bool
deriving DecidableEq, Repr

/-- `body_data.get(start..start+len)`: the checked slice of the collected
body. -/
def sliceGet (l : List Nat) (start len : Nat) : Option (List Nat) :=
  if start + len ≤ l.length then some ((l.drop start).take len) else none

/-- `u32::from_le_bytes` on a 4-byte slice. -/
def u32FromLeBytes : List Nat → Nat
  | [b0, b1, b2, b3] => b0 + 256 * b1 + 65536 * b2 + 16777216 * b3
  | _ => 0

/-- Dropping build metadata from an uploaded version (step 7 of publish). -/
def stripBuild (v : Version) : Version := { v with build := [] }

/-- The dependency conversion inside publish, applying the
`explicit_name_in_toml` rename rule. -/
def convertDep (dep : PublishDependency) : IndexDependency :=
  match dep.explicit_name_in_toml with
  | some explicit_name_in_toml =>
    { name := explicit_name_in_toml, req := dep.version_req, features := dep.features,
      optional := dep.optional, default_features := dep.default_features,
      target := dep.target, kind := dep.kind, registry := dep.registry,
      package := some dep.name }
  | none =>
    { name := dep.name, req := dep.version_req, features := dep.features,
      optional := dep.optional, default_features := dep.default_features,
      target := dep.target, kind := dep.kind, registry := dep.registry,
      package := none }

/-- The duplicate-version message
`format!("Crate {crate_name} already has version {crate_version}")`. -/
def dupMessage (name : CrateName) (version : Version) : List Char :=
  "Crate ".data ++ name.str ++ " already has version ".data ++ version.display

/-- The build-metadata warning
`format!("Build metadata in crate version was ignored: {}", build)`. -/
def buildMetaWarning (build : List Char) : List Char :=
  "Build metadata in crate version was ignored: ".data ++ build

/-- The `IndexEntry` publish constructs (steps 11 of the spec's publish
sequence). -/
def mkIndexEntry (crate_name : CrateName) (crate_version : Version)
    (publish_request : PublishRequest) (cksum : List Char) : IndexEntry :=
  { name := crate_name, vers := crate_version,
    deps := publish_request.deps.map convertDep, cksum := cksum,
    features := publish_request.features, yanked := false,
    links := publish_request.links, rust_version := publish_request.rust_version }

/-- The locked section of publish once an index file (possibly the empty
default) is in hand: duplicate check, entry construction, archive write,
index write. -/
def publishWithIndex (faults : Faults) (st : StorageState) (crate_name : CrateName)
    (crate_version : Version) (publish_request : PublishRequest) (cksum : List Char)
    (warnings : List (List Char)) (crate_data : List Nat) (index_file : IndexFile) :
    HandlerOutcome PublishResponse :=
  if index_file.entries.any (fun entry => entry.vers = crate_version) then
    ⟨.error ⟨400, [dupMessage crate_name crate_version]⟩, st, [.readIndex crate_name]⟩
  else
    let index_file' : IndexFile :=
      ⟨index_file.entries ++ [mkIndexEntry crate_name crate_version publish_request cksum]⟩
    match write_crate_file faults st crate_name crate_version crate_data with
    | .error e =>
      ⟨.error (errorResponseOfStorage e), st,
        [.readIndex crate_name, .writeCrate crate_name crate_version]⟩
    | .ok st1 =>
      match write_index_file faults st1 crate_name index_file' with
      | .error e =>
        ⟨.error (errorResponseOfStorage e), st1,
          [.readIndex crate_name, .writeCrate crate_name crate_version,
            .writeIndex crate_name]⟩
      | .ok st2 =>
        ⟨.ok ⟨⟨[], [], warnings⟩⟩, st2,
          [.readIndex crate_name, .writeCrate crate_name crate_version,
            .writeIndex crate_name]⟩

/-- The post-deserialization part of publish: strip build metadata (with
its warning), compute the checksum, read the current index (`NotFound`
recovers to the empty file, any other error aborts), and continue with
`publishWithIndex`. -/
def publishCore (sha256hex : List Nat → List Char) (faults : Faults) (st : StorageState)
    (publish_request : PublishRequest) (crate_data : List Nat) :
    HandlerOutcome PublishResponse :=
  let crate_name := publish_request.name
  let crate_version := stripBuild publish_request.vers
  let warnings : List (List Char) :=
    if publish_request.vers.build ≠ [] then [buildMetaWarning publish_request.vers.build]
    else []
  let cksum := sha256hex crate_data
  match read_index_file faults st crate_name with
  | .ok index_file =>
    publishWithIndex faults st crate_name crate_version publish_request cksum warnings
      crate_data index_file
  | .error .NotFound =>
    publishWithIndex faults st crate_name crate_version publish_request cksum warnings
      crate_data ⟨[]⟩
  | .error e => ⟨.error (errorResponseOfStorage e), st, [.readIndex crate_name]⟩

/-- `put_publish_crate` from the point where the request body has been
collected (the earlier `411`/`413` size checks concern the transport
layer): authorization, the two length-prefixed frames with checked
slicing, metadata deserialization (a parameter standing for
`serde_json`), then `publishCore`.  The SHA-256 implementation is likewise
a parameter. -/
def put_publish_crate (authorize : Except ErrorResponse Unit)
    (deser : List Nat → Except (List Char) PublishRequest)
    (sha256hex : List Nat → List Char) (faults : Faults) (st : StorageState)
    (body_data : List Nat) : HandlerOutcome PublishResponse :=
  match authorize with
  | .error e => ⟨.error e, st, []⟩
  | .ok () =>
    match sliceGet body_data 0 4 with
    | none => ⟨.error (ErrorResponse.from_status 400), st, []⟩
    | some json_length_bytes =>
      match sliceGet body_data 4 (u32FromLeBytes json_length_bytes) with
      | none => ⟨.error (ErrorResponse.from_status 400), st, []⟩
      | some json_bytes =>
        match deser json_bytes with
        | .error e => ⟨.error ⟨400, [e]⟩, st, []⟩
        | .ok publish_request =>
          match sliceGet body_data (4 + u32FromLeBytes json_length_bytes) 4 with
          | none => ⟨.error (ErrorResponse.from_status 400), st, []⟩
          | some crate_length_bytes =>
            match sliceGet body_data (4 + u32FromLeBytes json_length_bytes + 4)
                (u32FromLeBytes crate_length_bytes) with
            | none => ⟨.error (ErrorResponse.from_status 400), st, []⟩
            | some crate_data => publishCore sha256hex faults st publish_request crate_data

/-- The first length prefix of a publish body, as the code computes it
once four bytes are available. -/
def framingL1 (body : List Nat) : Nat := u32FromLeBytes ((body.drop 0).take 4)

/-- The second length prefix of a publish body. -/
def framingL2 (body : List Nat) : Nat :=
  u32FromLeBytes ((body.drop (4 + framingL1 body)).take 4)

/-- The entries of `name`'s index file in a storage state (empty when the
file is absent). -/
def entriesFor (st : StorageState) (name : CrateName) : List IndexEntry :=
  match st.indexFiles name with
  | some file => file.entries
  | none => []

/-- How many entries of a list carry the given `vers`. -/
def countVersion (version : Version) (entries : List IndexEntry) : Nat :=
  (entries.filter (fun e => e.vers = version)).length

/-! #### Yank / unyank -/

/-- `iter_mut().find(|entry| entry.vers == version)` followed by setting
its `yanked` flag: update the first entry with the given version, or
return `none` when absent. -/
def setYankedFirst (b : Bool) (version : Version) : List IndexEntry → Option (List IndexEntry)
  | [] => none
  | e :: rest =>
    if e.vers = version then some ({ e with yanked := b } :: rest)
    else (setYankedFirst b version rest).map (e :: ·)

/-- The shared body of yank and unyank: validate the name and version
(failures are 404), read the index (a missing index file surfaces as the
storage 404), flip the first matching entry's flag to `b` (absent version
is 404), write the index back. -/
def yankCore (forbiddenNames : List (List Char)) (b : Bool) (faults : Faults)
    (st : StorageState) (crate_name version : List Char) :
    HandlerOutcome Unit :=
  match CrateName.new forbiddenNames crate_name with
  | .error _ => ⟨.error ErrorResponse.not_found, st, []⟩
  | .ok name =>
    match versionParse version with
    | none => ⟨.error ErrorResponse.not_found, st, []⟩
    | some v =>
      match read_index_file faults st name with
      | .error e => ⟨.error (errorResponseOfStorage e), st, [.readIndex name]⟩
      | .ok index_file =>
        match setYankedFirst b v index_file.entries with
        | none => ⟨.error (ErrorResponse.from_status 404), st, [.readIndex name]⟩
        | some entries =>
          match write_index_file faults st name ⟨entries⟩ with
          | .error e =>
            ⟨.error (errorResponseOfStorage e), st, [.readIndex name, .writeIndex name]⟩
          | .ok st1 => ⟨.ok (), st1, [.readIndex name, .writeIndex name]⟩

/-- `delete_yank_crate`. -/
def delete_yank_crate (authorize : Except ErrorResponse Unit)
    (forbiddenNames : List (List Char)) (faults : Faults) (st : StorageState)
    (crate_name version : List Char) : HandlerOutcome YankResponse :=
  match authorize with
  | .error e => ⟨.error e, st, []⟩
  | .ok () =>
    match yankCore forbiddenNames true faults st crate_name version with
    | ⟨.error e, st1, tr⟩ => ⟨.error e, st1, tr⟩
    | ⟨.ok _, st1, tr⟩ => ⟨.ok ⟨true⟩, st1, tr⟩

/-- `put_unyank_crate`. -/
def put_unyank_crate (authorize : Except ErrorResponse Unit)
    (forbiddenNames : List (List Char)) (faults : Faults) (st : StorageState)
    (crate_name version : List Char) : HandlerOutcome UnyankResponse :=
  match authorize with
  | .error e => ⟨.error e, st, []⟩
  | .ok () =>
    match yankCore forbiddenNames false faults st crate_name version with
    | ⟨.error e, st1, tr⟩ => ⟨.error e, st1, tr⟩
    | ⟨.ok _, st1, tr⟩ => ⟨.ok ⟨true⟩, st1, tr⟩

/-! ### UTF-8 (`str::from_utf8` / the encoding of written text) -/

/-- UTF-8 encoding of one scalar value. -/
def utf8EncodeChar (c : Char) : List Nat :=
  let n := c.toNat
  if n < 0x80 then [n]
  else if n < 0x800 then [0xC0 + n / 0x40, 0x80 + n % 0x40]
  else if n < 0x10000 then
    [0xE0 + n / 0x1000, 0x80 + (n / 0x40) % 0x40, 0x80 + n % 0x40]
  else [0xF0 + n / 0x40000, 0x80 + (n / 0x1000) % 0x40, 0x80 + (n / 0x40) % 0x40,
    0x80 + n % 0x40]

/-- UTF-8 encoding of a string. -/
def utf8Encode (s : List Char) : List Nat := (s.map utf8EncodeChar).flatten

/-- `true` for a UTF-8 continuation byte. -/
def isCont (b : Nat) : Bool := 0x80 ≤ b ∧ b < 0xC0

/-- One step of strict UTF-8 decoding (`str::from_utf8`): decode the
scalar value starting with byte `b1`, rejecting stray continuation bytes,
overlong forms, surrogates, and values beyond `0x10FFFF`; return it with
the remaining bytes. -/
def utf8Step (b1 : Nat) (t1 : List Nat) : Option (Char × List Nat) :=
  if b1 < 0x80 then some (Char.ofNat b1, t1)
  else if b1 < 0xC2 then none
  else if b1 < 0xE0 then
    match t1 with
    | b2 :: t2 =>
      if isCont b2 then some (Char.ofNat ((b1 - 0xC0) * 0x40 + (b2 - 0x80)), t2) else none
    | _ => none
  else if b1 < 0xF0 then
    match t1 with
    | b2 :: b3 :: t3 =>
      if isCont b2 ∧ isCont b3 then
        let n := (b1 - 0xE0) * 0x1000 + (b2 - 0x80) * 0x40 + (b3 - 0x80)
        if n < 0x800 ∨ (0xD800 ≤ n ∧ n < 0xE000) then none
        else some (Char.ofNat n, t3)
      else none
    | _ => none
  else if b1 < 0xF5 then
    match t1 with
    | b2 :: b3 :: b4 :: t4 =>
      if isCont b2 ∧ isCont b3 ∧ isCont b4 then
        let n := (b1 - 0xF0) * 0x40000 + (b2 - 0x80) * 0x1000 + (b3 - 0x80) * 0x40 +
          (b4 - 0x80)
        if n < 0x10000 ∨ 0x110000 ≤ n then none
        else some (Char.ofNat n, t4)
      else none
    | _ => none
  else none

/-- The decoding loop.  Every successful step consumes at least one byte,
so fuel equal to the byte count never runs out. -/
def utf8DecodeAux : Nat → List Nat → Option (List Char)
  | _, [] => some []
  | 0, _ :: _ => none
  | fuel + 1, b1 :: t1 =>
    match utf8Step b1 t1 with
    | some p => (utf8DecodeAux fuel p.2).map (p.1 :: ·)
    | none => none

/-- Strict UTF-8 decoding of a byte string (`str::from_utf8`). -/
def utf8Decode (l : List Nat) : Option (List Char) := utf8DecodeAux l.length l

/-! ### JSON (the `serde_json` fragment the index format uses)

Values are numbers (the index only serializes `u64`), strings, booleans,
`null`, arrays and objects; rendering is `serde_json::to_string`'s compact
form, parsing is `serde_json::from_str` restricted to this fragment (no
floats, exponents, signs, or `\uXXXX` escapes above `0x00FF` — the index
serializer never produces them). -/

inductive Json
  | null
  | bool (b : Bool)
  | num (n : Nat)
  | str (s : List Char)
  | arr (elems : List Json)
  | obj (fields : List (List Char × Json))
deriving Repr

/-- Lower-case hexadecimal digit. -/
def hexDigitChar (n : Nat) : Char :=
  if n < 10 then digitChar n else Char.ofNat (87 + n)

/-- `serde_json`'s escaping of one character inside a string literal. -/
def escapeChar (c : Char) : List Char :=
  if c = '\x22' then ['\\', '\x22']
  else if c = '\\' then ['\\', '\\']
  else if c = '\x08' then ['\\', 'b']
  else if c = '\x09' then ['\\', 't']
  else if c = '\x0a' then ['\\', 'n']
  else if c = '\x0c' then ['\\', 'f']
  else if c = '\x0d' then ['\\', 'r']
  else if c.toNat < 0x20 then
    ['\\', 'u', '0', '0', hexDigitChar (c.toNat / 16), hexDigitChar (c.toNat % 16)]
  else [c]

/-- The body of a rendered string literal. -/
def escapeString (s : List Char) : List Char := (s.map escapeChar).flatten

/-- A rendered string literal, quotes included. -/
def renderStr (s : List Char) : List Char := '\x22' :: escapeString s ++ ['\x22']

mutual

/-- Compact rendering, `serde_json::to_string` style (no whitespace). -/
def Json.render : Json → List Char
  | .null => "null".data
  | .bool true => "true".data
  | .bool false => "false".data
  | .num n => natDigitChars n
  | .str s => renderStr s
  | .arr xs => '[' :: Json.renderArr xs ++ [']']
  | .obj fs => '\x7b' :: Json.renderObj fs ++ ['\x7d']

/-- Comma-separated rendering of array elements. -/
def Json.renderArr : List Json → List Char
  | [] => []
  | x :: xs => Json.render x ++ Json.renderArrTail xs

/-- The `,`-prefixed elements after the first. -/
def Json.renderArrTail : List Json → List Char
  | [] => []
  | x :: xs => ',' :: Json.render x ++ Json.renderArrTail xs

/-- Comma-separated rendering of object fields. -/
def Json.renderObj : List (List Char × Json) → List Char
  | [] => []
  | f :: fs => renderStr f.1 ++ ':' :: Json.render f.2 ++ Json.renderObjTail fs

/-- The `,`-prefixed fields after the first. -/
def Json.renderObjTail : List (List Char × Json) → List Char
  | [] => []
  | f :: fs => ',' :: renderStr f.1 ++ ':' :: Json.render f.2 ++ Json.renderObjTail fs

end

mutual

/-- Parser fuel sufficient for a value (each parser call consumes one). -/
def Json.jfuel : Json → Nat
  | .null => 1
  | .bool _ => 1
  | .num _ => 1
  | .str _ => 1
  | .arr xs => 1 + Json.jfuelElems xs
  | .obj fs => 1 + Json.jfuelFields fs

/-- Fuel sufficient for an element list (head value plus tail). -/
def Json.jfuelElems : List Json → Nat
  | [] => 1
  | x :: xs => 1 + Json.jfuel x + Json.jfuelElems xs

/-- Fuel sufficient for a field list. -/
def Json.jfuelFields : List (List Char × Json) → Nat
  | [] => 1
  | f :: fs => 2 + Json.jfuel f.2 + Json.jfuelFields fs

end

/-- JSON whitespace (space, tab, line feed, carriage return). -/
def jsonWs (c : Char) : Bool :=
  c.toNat = 32 || c.toNat = 9 || c.toNat = 10 || c.toNat = 13

/-- Skip leading JSON whitespace. -/
def skipWs (s : List Char) : List Char := s.dropWhile jsonWs

/-- Value of one hexadecimal digit. -/
def parseHexDigit (c : Char) : Option Nat :=
  if c.isDigit then some (c.toNat - 48)
  else if 'a' ≤ c ∧ c ≤ 'f' then some (c.toNat - 87)
  else if 'A' ≤ c ∧ c ≤ 'F' then some (c.toNat - 55)
  else none

/-- The single-character escapes. -/
def unescapeSimple : Char → Option Char
  | '\x22' => some '\x22'
  | '\\' => some '\\'
  | '/' => some '/'
  | 'b' => some '\x08'
  | 't' => some '\x09'
  | 'n' => some '\x0a'
  | 'f' => some '\x0c'
  | 'r' => some '\x0d'
  | _ => none

/-- The value of four hexadecimal digits. -/
def hex4 (a b c d : Char) : Option Nat :=
  match parseHexDigit a, parseHexDigit b, parseHexDigit c, parseHexDigit d with
  | some ha, some hb, some hc, some hd => some (4096 * ha + 256 * hb + 16 * hc + hd)
  | _, _, _, _ => none

/-- Parse a string-literal body up to its closing quote: escapes are
decoded, raw control characters are rejected (`\uXXXX` is supported on the
range the renderer emits, below the surrogates). -/
def parseStringBody : List Char → Option (List Char × List Char)
  | [] => none
  | c :: rest =>
    if c = '\x22' then some ([], rest)
    else if c = '\\' then
      match rest with
      | 'u' :: a :: b :: d :: e :: rest2 =>
        match hex4 a b d e with
        | some n =>
          if n < 0xD800 then
            (parseStringBody rest2).map (fun p => (Char.ofNat n :: p.1, p.2))
          else none
        | none => none
      | e :: rest2 =>
        match unescapeSimple e with
        | some x => (parseStringBody rest2).map (fun p => (x :: p.1, p.2))
        | none => none
      | [] => none
    else if 0x20 ≤ c.toNat then (parseStringBody rest).map (fun p => (c :: p.1, p.2))
    else none

mutual

/-- Parse one JSON value (leading whitespace allowed). -/
def parseValue : Nat → List Char → Option (Json × List Char)
  | 0, _ => none
  | fuel + 1, s =>
    match skipWs s with
    | 'n' :: 'u' :: 'l' :: 'l' :: rest => some (.null, rest)
    | 't' :: 'r' :: 'u' :: 'e' :: rest => some (.bool true, rest)
    | 'f' :: 'a' :: 'l' :: 's' :: 'e' :: rest => some (.bool false, rest)
    | '\x22' :: rest => (parseStringBody rest).map (fun p => (.str p.1, p.2))
    | '[' :: rest => parseElems fuel rest
    | '\x7b' :: rest => parseFields fuel rest
    | t => (parseNat t).map (fun p => (.num p.1, p.2))

/-- Parse the inside of an array, after the opening bracket. -/
def parseElems : Nat → List Char → Option (Json × List Char)
  | 0, _ => none
  | fuel + 1, s =>
    match skipWs s with
    | ']' :: rest => some (.arr [], rest)
    | _ =>
      (parseValue fuel s).bind fun p =>
      (parseElemsRest fuel p.2).map fun q => (Json.arr (p.1 :: q.1), q.2)

/-- Parse `,`-separated further elements and the closing bracket. -/
def parseElemsRest : Nat → List Char → Option (List Json × List Char)
  | 0, _ => none
  | fuel + 1, s =>
    match skipWs s with
    | ',' :: rest =>
      (parseValue fuel rest).bind fun p =>
      (parseElemsRest fuel p.2).map fun q => (p.1 :: q.1, q.2)
    | ']' :: rest => some ([], rest)
    | _ => none

/-- Parse the inside of an object, after the opening brace. -/
def parseFields : Nat → List Char → Option (Json × List Char)
  | 0, _ => none
  | fuel + 1, s =>
    match skipWs s with
    | '\x7d' :: rest => some (.obj [], rest)
    | _ =>
      (parseField fuel s).bind fun p =>
      (parseFieldsRest fuel p.2).map fun q => (Json.obj (p.1 :: q.1), q.2)

/-- Parse one `"key":value` field. -/
def parseField : Nat → List Char → Option ((List Char × Json) × List Char)
  | 0, _ => none
  | fuel + 1, s =>
    match skipWs s with
    | '\x22' :: rest =>
      (parseStringBody rest).bind fun k =>
      match skipWs k.2 with
      | ':' :: rest2 => (parseValue fuel rest2).map fun v => ((k.1, v.1), v.2)
      | _ => none
    | _ => none

/-- Parse `,`-separated further fields and the closing brace. -/
def parseFieldsRest : Nat → List Char → Option (List (List Char × Json) × List Char)
  | 0, _ => none
  | fuel + 1, s =>
    match skipWs s with
    | ',' :: rest =>
      (parseField fuel rest).bind fun p =>
      (parseFieldsRest fuel p.2).map fun q => (p.1 :: q.1, q.2)
    | '\x7d' :: rest => some ([], rest)
    | _ => none

end

/-- The characters a rendered JSON value can start with (used to relate
the renderer to the parser's dispatch on the first character). -/
def jsonStartChar (c : Char) : Bool :=
  (48 ≤ c.toNat && c.toNat ≤ 57) || c.toNat = 110 || c.toNat = 116 || c.toNat = 102 ||
    c.toNat = 34 || c.toNat = 91 || c.toNat = 123

/-- `serde_json::from_str` on this fragment: parse one value, allow only
trailing whitespace.  The fuel is ample for any value a list of this
length can render to. -/
def jsonParse (s : List Char) : Option Json :=
  match parseValue (2 * s.length + 2) s with
  | some (j, rest) => if skipWs rest = [] then some j else none
  | none => none

/-! ### `str::lines` and `str::trim_end` -/

/-- `char::is_whitespace` (the Unicode `White_Space` property). -/
def rustWs (c : Char) : Bool :=
  (9 ≤ c.toNat && c.toNat ≤ 13) || c.toNat = 32 || c.toNat = 0x85 || c.toNat = 0xA0 ||
    c.toNat = 0x1680 || (0x2000 ≤ c.toNat && c.toNat ≤ 0x200A) || c.toNat = 0x2028 ||
    c.toNat = 0x2029 || c.toNat = 0x202F || c.toNat = 0x205F || c.toNat = 0x3000

/-- `str::trim_end`. -/
def trimEnd (s : List Char) : List Char := (s.reverse.dropWhile rustWs).reverse

/-- Split at every `\n` (the separators are consumed; a trailing `\n`
yields a final empty piece). -/
def splitNl : List Char → List (List Char)
  | [] => [[]]
  | c :: rest =>
    if c = '\x0a' then [] :: splitNl rest
    else
      match splitNl rest with
      | [] => [[c]]
      | l :: ls => (c :: l) :: ls

/-- Drop one final `\r` (the CRLF half-step of `str::lines`). -/
def stripCrEnd (l : List Char) : List Char :=
  match l.getLast? with
  | some '\x0d' => l.dropLast
  | _ => l

/-- `str::lines`: split at `\n`, drop the piece after a terminating final
newline, strip one `\r` before each split point. -/
def rustLines (s : List Char) : List (List Char) :=
  (if (splitNl s).getLast? = some [] then (splitNl s).dropLast else splitNl s).map stripCrEnd

/-- Join lines with single `\n` separators (no trailing newline), as
`IndexFile::to_bytes` does. -/
def joinLines : List (List Char) → List Char
  | [] => []
  | [l] => l
  | l :: ls => l ++ '\x0a' :: joinLines ls

/-! ### The serde codecs of the index types (`src/index.rs`)

The derived `Serialize`/`Deserialize` impls, spelled out on the JSON
model: fields serialize in declaration order; a missing `Option` field (or
one with `#[serde(default)]`) deserializes to `None`; `BTreeMap` iterates
in, and is rebuilt by ordered insertion into, strictly increasing key
order; `semver::VersionReq` and `url::Url` pass through as their canonical
strings. -/

/-- serde's struct-field lookup: the first field with the given key. -/
def Json.getField? : List (List Char × Json) → List Char → Option Json
  | [], _ => none
  | f :: fs, key => if f.1 = key then some f.2 else Json.getField? fs key

/-- A required field: missing means a deserialization error. -/
def reqField (fields : List (List Char × Json)) (key : List Char) : Except Unit Json :=
  match Json.getField? fields key with
  | some v => .ok v
  | none => .error ()

/-- An optional field: missing behaves like an explicit `null`. -/
def optField (fields : List (List Char × Json)) (key : List Char) : Json :=
  match Json.getField? fields key with
  | some v => v
  | none => .null

def decodeString : Json → Except Unit (List Char)
  | .str s => .ok s
  | _ => .error ()

def decodeBool : Json → Except Unit Bool
  | .bool b => .ok b
  | _ => .error ()

/-- `Option<String>`: `null` is `None`. -/
def decodeOptString : Json → Except Unit (Option (List Char))
  | .null => .ok none
  | .str s => .ok (some s)
  | _ => .error ()

def decodeStringElems : List Json → Except Unit (List (List Char))
  | [] => .ok []
  | x :: xs =>
    match decodeString x with
    | .error e => .error e
    | .ok s =>
      match decodeStringElems xs with
      | .error e => .error e
      | .ok rest => .ok (s :: rest)

/-- `Vec<String>`. -/
def decodeStringList : Json → Except Unit (List (List Char))
  | .arr xs => decodeStringElems xs
  | _ => .error ()

/-- `DependencyKind` with `#[serde(rename_all = "lowercase")]`. -/
def kindStr : DependencyKind → List Char
  | .dev => "dev".data
  | .build => "build".data
  | .normal => "normal".data

def decodeKind : Json → Except Unit DependencyKind
  | .str s =>
    if s = "dev".data then .ok .dev
    else if s = "build".data then .ok DependencyKind.build
    else if s = "normal".data then .ok .normal
    else .error ()
  | _ => .error ()

/-- `Option<MinRustVersion>`: a string parsed by `MinRustVersion::from_str`. -/
def decodeRustVersion : Json → Except Unit (Option MinRustVersion)
  | .null => .ok none
  | .str s =>
    match MinRustVersion.from_str s with
    | .ok m => .ok (some m)
    | .error _ => .error ()
  | _ => .error ()

/-- `CrateName`'s `Deserialize` (via `CrateName::new`). -/
def decodeCrateName (forbiddenNames : List (List Char)) : Json → Except Unit CrateName
  | .str s =>
    match CrateName.new forbiddenNames s with
    | .ok n => .ok n
    | .error _ => .error ()
  | _ => .error ()

/-- `semver::Version`'s `Deserialize` (via its parser). -/
def decodeVersion : Json → Except Unit Version
  | .str s =>
    match versionParse s with
    | some v => .ok v
    | none => .error ()
  | _ => .error ()

/-- `FeatureName`'s `Deserialize` (via `FeatureName::new`). -/
def decodeFeatureName (j : List Char) : Except Unit FeatureName :=
  match FeatureName.new j with
  | .ok n => .ok n
  | .error _ => .error ()

/-- The strict ordering `BTreeMap<FeatureName, _>` sorts by (`FeatureName`
derives `Ord`, which on `String` is byte-lexicographic). -/
def lexLt : List Char → List Char → Bool
  | [], [] => false
  | [], _ :: _ => true
  | _ :: _, [] => false
  | x :: xs, y :: ys =>
    if x.toNat < y.toNat then true
    else if y.toNat < x.toNat then false
    else lexLt xs ys

/-- `BTreeMap::insert` on the sorted-association-list model: place the key
at its ordered position, replacing an equal key. -/
def insertFeature (k : FeatureName) (v : List (List Char)) :
    List (FeatureName × List (List Char)) → List (FeatureName × List (List Char))
  | [] => [(k, v)]
  | (k', v') :: rest =>
    if lexLt k.str k'.str then (k, v) :: (k', v') :: rest
    else if k.str = k'.str then (k, v) :: rest
    else (k', v') :: insertFeature k v rest

/-- Deserializing a map: decode each field in order and insert it. -/
def decodeFeatureFields (acc : List (FeatureName × List (List Char))) :
    List (List Char × Json) → Except Unit (List (FeatureName × List (List Char)))
  | [] => .ok acc
  | f :: fs =>
    match decodeFeatureName f.1 with
    | .error e => .error e
    | .ok k =>
      match decodeStringList f.2 with
      | .error e => .error e
      | .ok v => decodeFeatureFields (insertFeature k v acc) fs

/-- `BTreeMap<FeatureName, Vec<String>>`. -/
def decodeFeatures : Json → Except Unit (List (FeatureName × List (List Char)))
  | .obj fields => decodeFeatureFields [] fields
  | _ => .error ()

/-- `Option<String>` (and `Option<Url>`) as JSON. -/
def optStrJson : Option (List Char) → Json
  | none => Json.null
  | some s => Json.str s

/-- `IndexDependency`'s derived `Serialize`. -/
def IndexDependency.toJson (d : IndexDependency) : Json :=
  .obj [("name".data, .str d.name), ("req".data, .str d.req),
    ("features".data, .arr (d.features.map Json.str)),
    ("optional".data, .bool d.optional),
    ("default_features".data, .bool d.default_features),
    ("target".data, optStrJson d.target),
    ("kind".data, .str (kindStr d.kind)),
    ("registry".data, optStrJson d.registry),
    ("package".data, optStrJson d.package)]

/-- `IndexDependency`'s derived `Deserialize` (`target`, `registry` and
`package` carry `#[serde(default)]`). -/
def IndexDependency.fromJson : Json → Except Unit IndexDependency
  | .obj fields =>
    (reqField fields "name".data).bind fun jn =>
    (decodeString jn).bind fun name =>
    (reqField fields "req".data).bind fun jr =>
    (decodeString jr).bind fun req =>
    (reqField fields "features".data).bind fun jf =>
    (decodeStringList jf).bind fun features =>
    (reqField fields "optional".data).bind fun jo =>
    (decodeBool jo).bind fun optional =>
    (reqField fields "default_features".data).bind fun jd =>
    (decodeBool jd).bind fun default_features =>
    (decodeOptString (optField fields "target".data)).bind fun target =>
    (reqField fields "kind".data).bind fun jk =>
    (decodeKind jk).bind fun kind =>
    (decodeOptString (optField fields "registry".data)).bind fun registry =>
    (decodeOptString (optField fields "package".data)).map fun package =>
    { name := name, req := req, features := features, optional := optional,
      default_features := default_features, target := target, kind := kind,
      registry := registry, package := package }
  | _ => .error ()

def decodeDepElems : List Json → Except Unit (List IndexDependency)
  | [] => .ok []
  | x :: xs =>
    match IndexDependency.fromJson x with
    | .error e => .error e
    | .ok d =>
      match decodeDepElems xs with
      | .error e => .error e
      | .ok rest => .ok (d :: rest)

/-- `Vec<IndexDependency>`. -/
def decodeDeps : Json → Except Unit (List IndexDependency)
  | .arr xs => decodeDepElems xs
  | _ => .error ()

/-- `IndexEntry`'s derived `Serialize`, in field declaration order. -/
def IndexEntry.toJson (e : IndexEntry) : Json :=
  .obj [("name".data, .str e.name.str), ("vers".data, .str e.vers.display),
    ("deps".data, .arr (e.deps.map IndexDependency.toJson)),
    ("cksum".data, .str e.cksum),
    ("features".data, .obj (e.features.map fun kv => (kv.1.str, Json.arr (kv.2.map Json.str)))),
    ("yanked".data, .bool e.yanked),
    ("links".data, optStrJson e.links),
    ("rust_version".data,
      match e.rust_version with
      | none => Json.null
      | some m => Json.str m.display)]

/-- `IndexEntry`'s derived `Deserialize` (`links` carries
`#[serde(default)]`; `rust_version` is a plain `Option`, also absentable). -/
def IndexEntry.fromJson (forbiddenNames : List (List Char)) : Json → Except Unit IndexEntry
  | .obj fields =>
    (reqField fields "name".data).bind fun jn =>
    (decodeCrateName forbiddenNames jn).bind fun name =>
    (reqField fields "vers".data).bind fun jv =>
    (decodeVersion jv).bind fun vers =>
    (reqField fields "deps".data).bind fun jd =>
    (decodeDeps jd).bind fun deps =>
    (reqField fields "cksum".data).bind fun jc =>
    (decodeString jc).bind fun cksum =>
    (reqField fields "features".data).bind fun jf =>
    (decodeFeatures jf).bind fun features =>
    (reqField fields "yanked".data).bind fun jy =>
    (decodeBool jy).bind fun yanked =>
    (decodeOptString (optField fields "links".data)).bind fun links =>
    (decodeRustVersion (optField fields "rust_version".data)).map fun rust_version =>
    { name := name, vers := vers, deps := deps, cksum := cksum, features := features,
      yanked := yanked, links := links, rust_version := rust_version }
  | _ => .error ()

/-! ### `IndexFile::from_bytes` / `IndexFile::to_bytes` (`src/index.rs`) -/

inductive IndexFileError
  | Utf8
  | Json
deriving DecidableEq, Repr

/-- One line of an index file:
`serde_json::from_str::<IndexEntry>(l.trim_end())`. -/
def parseEntryLine (forbiddenNames : List (List Char)) (l : List Char) :
    Except Unit IndexEntry :=
  match jsonParse (trimEnd l) with
  | some j => IndexEntry.fromJson forbiddenNames j
  | none => .error ()

/-- `.map(...).collect::<Result<_, _>>()`: the first error wins. -/
def collectEntries (forbiddenNames : List (List Char)) :
    List (List Char) → Except Unit (List IndexEntry)
  | [] => .ok []
  | l :: ls =>
    match parseEntryLine forbiddenNames l with
    | .error e => .error e
    | .ok entry =>
      match collectEntries forbiddenNames ls with
      | .error e => .error e
      | .ok rest => .ok (entry :: rest)

/-- `IndexFile::from_bytes`: UTF-8 decode, split into lines, parse every
line (trailing whitespace trimmed) as one entry. -/
def IndexFile.from_bytes (forbiddenNames : List (List Char)) (bytes : List Nat) :
    Except IndexFileError IndexFile :=
  match utf8Decode bytes with
  | none => .error .Utf8
  | some s =>
    match collectEntries forbiddenNames (rustLines s) with
    | .ok entries => .ok ⟨entries⟩
    | .error _ => .error .Json

/-- `IndexFile::to_bytes`: serialize each entry, joined by single `\n`
separators with no trailing newline (an empty file only logs a warning).
Serialization to an in-memory buffer cannot fail, so the `Result` is
dropped here. -/
def IndexFile.to_bytes (f : IndexFile) : List Nat :=
  utf8Encode (joinLines (f.entries.map fun e => (IndexEntry.toJson e).render))

/-! #### The index-fetch endpoint (`get_index_file` in `src/main.rs`) -/

/-- `get_index_file`: authorize, interpret the wildcard path's components
as an index path (failure is `ErrorResponse::not_found`), read the index
file under the lock and serialize it back out. -/
def get_index_file (authorize : Except ErrorResponse Unit)
    (forbiddenNames : List (List Char)) (faults : Faults) (st : StorageState)
    (path : List PathComponent) : HandlerOutcome (List Nat) :=
  match authorize with
  | .error e => ⟨.error e, st, []⟩
  | .ok () =>
    match CrateName.from_index_path forbiddenNames path with
    | .error _ => ⟨.error ErrorResponse.not_found, st, []⟩
    | .ok crate_name =>
      match read_index_file faults st crate_name with
      | .error e => ⟨.error (errorResponseOfStorage e), st, [.readIndex crate_name]⟩
      | .ok index_file => ⟨.ok index_file.to_bytes, st, [.readIndex crate_name]⟩

/-! ### The invariants carried by in-memory index values

Every `IndexEntry` the Rust program holds was built from validated parts
(`CrateName::new`, `FeatureName::new`, the semver parsers, `BTreeMap`'s
ordering); these predicates record exactly that. -/

/-- The constraint on an optional `rust_version`. -/
def optMrvWF : Option MinRustVersion → Prop
  | none => True
  | some m => m.WF

instance : (o : Option MinRustVersion) → Decidable (optMrvWF o)
  | none => by unfold optMrvWF; infer_instance
  | some _ => by unfold optMrvWF; infer_instance

/-- Well-formedness of an `IndexEntry`: the name is a fixpoint of
`CrateName::new`, the version's segments are identifier runs, the
`rust_version` has its builder's shape, and the feature map is strictly
sorted with valid feature names. -/
def IndexEntry.WF (forbiddenNames : List (List Char)) (e : IndexEntry) : Prop :=
  CrateName.new forbiddenNames e.name.str = .ok e.name ∧
  e.vers.WF ∧
  optMrvWF e.rust_version ∧
  List.Pairwise (fun a b => lexLt a.1.str b.1.str = true) e.features ∧
  ∀ kv ∈ e.features, FeatureName.new kv.1.str = .ok kv.1

instance (forbiddenNames : List (List Char)) (e : IndexEntry) :
    Decidable (e.WF forbiddenNames) := by
  unfold IndexEntry.WF; infer_instance

/-- Well-formedness of an `IndexFile`: of every entry. -/
def IndexFile.WF (forbiddenNames : List (List Char)) (f : IndexFile) : Prop :=
  ∀ e ∈ f.entries, e.WF forbiddenNames

instance (forbiddenNames : List (List Char)) (f : IndexFile) :
    Decidable (f.WF forbiddenNames) := by
  unfold IndexFile.WF; infer_instance

/-! ### Concrete fixtures used by witnesses -/

/-- The storage state with no files at all. -/
def emptyStorage : StorageState := ⟨fun _ => none, fun _ _ => none⟩

/-- A minimal publish request for crate `a`, version `1.0.0`. -/
def sampleRequest : PublishRequest :=
  { name := ⟨['a']⟩, vers := ⟨1, 0, 0, [], []⟩, deps := [], features := [], authors := [],
    description := none, documentation := none, homepage := none, readme := none,
    readme_file := none, keywords := [], categories := [], license := none,
    license_file := none, repository := none, badges := none, links := none,
    rust_version := none }

/-- A minimal published index entry for crate `a`, version `1.0.0`. -/
def sampleEntry : IndexEntry :=
  ⟨⟨['a']⟩, ⟨1, 0, 0, [], []⟩, [], [], [], false, none, none⟩

/-- A storage state holding exactly one index file with `sampleEntry`. -/
def sampleYankState : StorageState :=
  ⟨fun q => if q = ⟨['a']⟩ then some ⟨[sampleEntry]⟩ else none, fun _ _ => none⟩

/-- A dependency for `rtEntry`: renamed, with one feature. -/
def rtDep : IndexDependency :=
  ⟨"syn2".data, "^2.0".data, ["full".data], false, true, none, DependencyKind.normal,
    none, some "syn".data⟩

/-- An index entry exercising every serialized field: a dependency with a
rename, a sorted two-key feature map, and a `rust_version`. -/
def rtEntry : IndexEntry :=
  ⟨⟨"serde".data⟩, ⟨1, 2, 3, [], []⟩, [rtDep], "abc123".data,
    [(⟨"default".data⟩, ["std".data]), (⟨"std".data⟩, [])], false, none,
    some ⟨1, some 70, none, []⟩⟩

/-! # Theorems -/

/-! ### Character facts -/

theorem char_le_iff (c d : Char) : (c ≤ d) ↔ c.toNat ≤ d.toNat := by
  rw [Char.le_def]; rfl

theorem char_eq_iff (c d : Char) : c = d ↔ c.toNat = d.toNat := by
  constructor
  · intro h; rw [h]
  · intro h
    apply Char.eq_of_val_eq
    apply UInt32.toBitVec_injective
    exact BitVec.eq_of_toNat_eq h

theorem toNat_ofNat_valid (n : Nat) (h : n.isValidChar) : (Char.ofNat n).toNat = n := by
  simp [Char.ofNat, h, Char.toNat, Char.ofNatAux, UInt32.toNat]

theorem char_valid (c : Char) : c.toNat < 55296 ∨ 57343 < c.toNat ∧ c.toNat < 1114112 := by
  have h := c.valid
  rcases h with h | h
  · left; exact h
  · right; exact h

theorem isDigit_iff (c : Char) : c.isDigit = true ↔ 48 ≤ c.toNat ∧ c.toNat ≤ 57 := by
  unfold Char.isDigit
  rw [Bool.and_eq_true, decide_eq_true_iff, decide_eq_true_iff]
  exact and_congr (by rfl) (by rfl)

theorem isLower_iff (c : Char) : c.isLower = true ↔ 97 ≤ c.toNat ∧ c.toNat ≤ 122 := by
  unfold Char.isLower
  rw [Bool.and_eq_true, decide_eq_true_iff, decide_eq_true_iff]
  exact and_congr (by rfl) (by rfl)

theorem isUpper_iff (c : Char) : c.isUpper = true ↔ 65 ≤ c.toNat ∧ c.toNat ≤ 90 := by
  unfold Char.isUpper
  rw [Bool.and_eq_true, decide_eq_true_iff, decide_eq_true_iff]
  exact and_congr (by rfl) (by rfl)

theorem isAlpha_iff (c : Char) :
    c.isAlpha = true ↔ (65 ≤ c.toNat ∧ c.toNat ≤ 90) ∨ (97 ≤ c.toNat ∧ c.toNat ≤ 122) := by
  unfold Char.isAlpha
  rw [Bool.or_eq_true, isUpper_iff, isLower_iff]

theorem digitChar_toNat (d : Nat) (h : d < 10) : (digitChar d).toNat = 48 + d := by
  exact toNat_ofNat_valid _ (by left; omega)

theorem isDigit_digitChar (d : Nat) (h : d < 10) : (digitChar d).isDigit = true := by
  rw [isDigit_iff, digitChar_toNat d h]; omega

theorem charDigitVal_digitChar (d : Nat) (h : d < 10) : charDigitVal (digitChar d) = d := by
  unfold charDigitVal; rw [digitChar_toNat d h]; omega

theorem rustToLower_idem (c : Char) : rustToLower (rustToLower c) = rustToLower c := by
  by_cases h : 'A' ≤ c ∧ c ≤ 'Z'
  · have h1 : 65 ≤ c.toNat := (char_le_iff _ _).mp h.1
    have h2 : c.toNat ≤ 90 := (char_le_iff _ _).mp h.2
    have hval : (Char.ofNat (c.toNat + 32)).toNat = c.toNat + 32 :=
      toNat_ofNat_valid _ (by left; omega)
    unfold rustToLower
    rw [if_pos h, if_neg]
    intro hcontra
    have hle := (char_le_iff _ _).mp hcontra.2
    have hz : ('Z' : Char).toNat = 90 := rfl
    rw [hval, hz] at hle
    omega
  · unfold rustToLower
    rw [if_neg h, if_neg h]

theorem map_rustToLower_idem (s : List Char) :
    (s.map rustToLower).map rustToLower = s.map rustToLower := by
  rw [List.map_map]
  exact List.map_congr_left (fun a _ => rustToLower_idem a)

/-! ### Decimal digit round-trip -/

theorem natToCharsAux_eq_digits (fuel n : Nat) (h : n ≤ fuel) :
    natToCharsAux fuel n = (Nat.digits 10 n).reverse.map digitChar := by
  induction fuel generalizing n with
  | zero =>
    interval_cases n
    simp [natToCharsAux]
  | succ fuel ih =>
    by_cases hn : n = 0
    · simp [natToCharsAux, hn]
    · have hlt : n / 10 ≤ fuel := by
        have := Nat.div_lt_self (Nat.pos_of_ne_zero hn) (by norm_num : 1 < 10)
        omega
      rw [natToCharsAux, if_neg hn, ih (n / 10) hlt,
        Nat.digits_def' (by norm_num : (1 : ℕ) < 10) (Nat.pos_of_ne_zero hn)]
      simp

theorem natDigitChars_eq_digits (n : Nat) (h : n ≠ 0) :
    natDigitChars n = (Nat.digits 10 n).reverse.map digitChar := by
  rw [natDigitChars, if_neg h, natToCharsAux_eq_digits n n le_rfl]

theorem natDigitChars_all_digit (n : Nat) :
    ∀ c ∈ natDigitChars n, c.isDigit = true := by
  by_cases h : n = 0
  · subst h; intro c hc
    simp [natDigitChars] at hc
    subst hc
    exact isDigit_digitChar 0 (by norm_num)
  · rw [natDigitChars_eq_digits n h]
    intro c hc
    simp only [List.mem_map, List.mem_reverse] at hc
    obtain ⟨d, hd, rfl⟩ := hc
    exact isDigit_digitChar d (Nat.digits_lt_base (by norm_num) hd)

theorem natDigitChars_ne_nil (n : Nat) : natDigitChars n ≠ [] := by
  by_cases h : n = 0
  · subst h; simp [natDigitChars]
  · rw [natDigitChars_eq_digits n h]
    simp [Nat.digits_ne_nil_iff_ne_zero, h]

theorem digitsVal_foldl (L : List Nat) (hL : ∀ d ∈ L, d < 10) (a : Nat) :
    (L.reverse.map digitChar).foldl (fun x c => 10 * x + charDigitVal c) a =
      a * 10 ^ L.length + Nat.ofDigits 10 L := by
  induction L generalizing a with
  | nil => simp
  | cons d L ih =>
    have hd : d < 10 := hL d (by simp)
    have hL' : ∀ x ∈ L, x < 10 := fun x hx => hL x (by simp [hx])
    simp only [List.reverse_cons, List.map_append, List.map_cons, List.map_nil,
      List.foldl_append, List.foldl_cons, List.foldl_nil]
    rw [ih hL', charDigitVal_digitChar d hd, Nat.ofDigits_cons, List.length_cons, pow_succ]
    ring

theorem digitsVal_natDigitChars (n : Nat) : digitsVal (natDigitChars n) = n := by
  by_cases h : n = 0
  · subst h; simp [natDigitChars, digitsVal, charDigitVal, digitChar]
  · rw [natDigitChars_eq_digits n h]
    unfold digitsVal
    rw [digitsVal_foldl _ (fun d hd => Nat.digits_lt_base (by norm_num) hd) 0]
    simp [Nat.ofDigits_digits]

theorem takeWhile_append_all {α} (p : α → Bool) (l r : List α)
    (hl : ∀ a ∈ l, p a = true) (hr : ∀ c, r.head? = some c → p c = false) :
    (l ++ r).takeWhile p = l ∧ (l ++ r).dropWhile p = r := by
  induction l with
  | nil =>
    simp only [List.nil_append]
    cases r with
    | nil => simp
    | cons c r =>
      have := hr c rfl
      simp [List.takeWhile, List.dropWhile, this]
  | cons a l ih =>
    have ha : p a = true := hl a (by simp)
    have ih' := ih (fun x hx => hl x (by simp [hx]))
    simp [List.takeWhile, List.dropWhile, ha, ih'.1, ih'.2]

theorem parseNat_digits (n : Nat) (rest : List Char) (h : noLeadDigit rest = true) :
    parseNat (natDigitChars n ++ rest) = some (n, rest) := by
  have hr : ∀ c, rest.head? = some c → c.isDigit = false := by
    intro c hc
    cases rest with
    | nil => simp at hc
    | cons x xs =>
      simp only [List.head?_cons, Option.some.injEq] at hc
      subst hc
      simpa [noLeadDigit] using h
  have htw := takeWhile_append_all Char.isDigit (natDigitChars n) rest
    (natDigitChars_all_digit n) hr
  unfold parseNat
  rw [htw.1, htw.2]
  have hne := natDigitChars_ne_nil n
  cases hnd : natDigitChars n with
  | nil => exact absurd hnd hne
  | cons c cs =>
    have hv : digitsVal (c :: cs) = n := by rw [← hnd, digitsVal_natDigitChars]
    simp [hv]

/-! ### semver `Version` display/parse round-trip -/

theorem expectChar_cons (c : Char) (r : List Char) : expectChar c (c :: r) = some r := by
  simp [expectChar]

theorem noLeadDigit_dot (l : List Char) : noLeadDigit ('.' :: l) = true := rfl

theorem parsePre_display (pre bp : List Char) (hpre : pre.all semverIdentChar = true)
    (hbp : ∀ c, bp.head? = some c → c = '+') :
    parsePre ((if pre = [] then [] else '-' :: pre) ++ bp) = some (pre, bp) := by
  by_cases hp : pre = []
  · subst hp
    simp only [if_pos rfl, List.nil_append]
    cases bp with
    | nil => rfl
    | cons c r =>
      have := hbp c rfl
      subst this
      rfl
  · rw [if_neg hp]
    have hr : ∀ c, bp.head? = some c → semverIdentChar c = false := by
      intro c hc
      rw [hbp c hc]
      decide
    have htw := takeWhile_append_all semverIdentChar pre bp
      (fun a ha => by
        have := List.all_eq_true.mp hpre a ha
        simpa using this) hr
    show parsePre ('-' :: (pre ++ bp)) = some (pre, bp)
    have hstep : parsePre ('-' :: (pre ++ bp)) = parsePreAux (pre ++ bp) := rfl
    rw [hstep]
    unfold parsePreAux
    rw [htw.1, htw.2]
    cases hpre' : pre with
    | nil => exact absurd hpre' hp
    | cons c cs => simp

theorem parseBuild_display (build : List Char) (hbuild : build.all semverIdentChar = true) :
    parseBuild (if build = [] then [] else '+' :: build) = some build := by
  by_cases hb : build = []
  · simp [hb, parseBuild]
  · rw [if_neg hb]
    simp [parseBuild, hb, hbuild]

theorem versionParse_display (v : Version) (h : v.WF) : versionParse v.display = some v := by
  obtain ⟨M, mi, p, pre, build⟩ := v
  obtain ⟨hpre, hbuild⟩ := h
  simp only [Version.WF] at hpre hbuild
  have hbp : ∀ c, (if build = ([] : List Char) then ([] : List Char)
      else '+' :: build).head? = some c → c = '+' := by
    intro c hc
    by_cases hb : build = []
    · rw [if_pos hb] at hc
      simp at hc
    · rw [if_neg hb] at hc
      simp only [List.head?_cons, Option.some.injEq] at hc
      exact hc.symm
  have hdisp : Version.display ⟨M, mi, p, pre, build⟩ =
      natDigitChars M ++ ('.' :: (natDigitChars mi ++ ('.' :: (natDigitChars p ++
        ((if pre = [] then [] else '-' :: pre) ++
         (if build = [] then [] else '+' :: build)))))) := by
    simp [Version.display, List.append_assoc]
  have htail : noLeadDigit ((if pre = ([] : List Char) then ([] : List Char) else '-' :: pre) ++
      (if build = ([] : List Char) then ([] : List Char) else '+' :: build)) = true := by
    by_cases hp : pre = [] <;> by_cases hb : build = [] <;>
      simp [hp, hb, noLeadDigit]
  rw [hdisp]
  unfold versionParse
  rw [parseNat_digits M ('.' :: (natDigitChars mi ++ ('.' :: (natDigitChars p ++
        ((if pre = [] then [] else '-' :: pre) ++
         (if build = [] then [] else '+' :: build)))))) rfl]
  rw [Option.some_bind]
  rw [expectChar_cons, Option.some_bind]
  rw [parseNat_digits mi ('.' :: (natDigitChars p ++
        ((if pre = [] then [] else '-' :: pre) ++
         (if build = [] then [] else '+' :: build)))) rfl]
  rw [Option.some_bind]
  rw [expectChar_cons, Option.some_bind]
  rw [parseNat_digits p ((if pre = [] then [] else '-' :: pre) ++
         (if build = [] then [] else '+' :: build)) htail]
  rw [Option.some_bind]
  rw [parsePre_display pre _ hpre hbp, Option.some_bind]
  rw [parseBuild_display build hbuild, Option.map_some']

/-! ### `CrateName::new` facts and the index-path round-trip -/

theorem crateName_new_ok (forbiddenNames : List (List Char)) (s : List Char) (n : CrateName)
    (h : CrateName.new forbiddenNames s = .ok n) :
    n.str = s.map rustToLower ∧ n.str.all isAsciiChar = true ∧
      (∃ c t, n.str = c :: t ∧ c.isAlpha = true) ∧
      n.str.length ≤ MAX_CRATE_NAME_LENGTH ∧ n.str.all allowedNameChar = true ∧
      n.str ∉ forbiddenNames := by
  simp only [CrateName.new] at h
  split at h
  · exact absurd h (by simp)
  next hascii =>
    split at h
    · exact absurd h (by simp)
    next first_char hhead =>
      split at h
      · exact absurd h (by simp)
      next halpha =>
        split at h
        · exact absurd h (by simp)
        next hlen =>
          split at h
          · exact absurd h (by simp)
          next hallowed =>
            split at h
            · exact absurd h (by simp)
            next hforb =>
              rw [Except.ok.injEq] at h
              subst h
              dsimp only
              refine ⟨rfl, by simpa using hascii, ?_, by omega, by simpa using hallowed, hforb⟩
              cases hls : s.map rustToLower with
              | nil => rw [hls] at hhead; simp at hhead
              | cons c t =>
                rw [hls] at hhead
                simp only [List.head?_cons, Option.some.injEq] at hhead
                subst hhead
                exact ⟨c, t, rfl, by simpa using halpha⟩

theorem crateName_new_fixpoint (forbiddenNames : List (List Char)) (s : List Char)
    (n : CrateName) (h : CrateName.new forbiddenNames s = .ok n) :
    CrateName.new forbiddenNames n.str = .ok n := by
  obtain ⟨hlow, hascii, ⟨c, t, hcons, halpha⟩, hlen, hallowed, hforb⟩ :=
    crateName_new_ok forbiddenNames s n h
  have hfix : n.str.map rustToLower = n.str := by
    rw [hlow, map_rustToLower_idem]
  simp only [CrateName.new, hfix]
  rw [show n.str.all isAsciiChar = true from hascii]
  rw [hcons]
  simp only [List.head?_cons, Bool.not_true, Bool.false_eq_true, if_false]
  rw [show c.isAlpha = true from halpha]
  simp only [Bool.not_true, Bool.false_eq_true, if_false]
  rw [if_neg (by rw [← hcons]; omega)]
  rw [show (c :: t).all allowedNameChar = true from hcons ▸ hallowed]
  simp only [Bool.not_true, Bool.false_eq_true, if_false]
  rw [if_neg (hcons ▸ hforb)]
  rw [← hcons]

theorem length_take_eq (s : List Char) (k : Nat) (h : k ≤ s.length) :
    (s.take k).length = k := by
  simp [List.length_take]
  omega

theorem all_take (p : Char → Bool) (s : List Char) (k : Nat) (h : s.all p = true) :
    (s.take k).all p = true := by
  rw [List.all_eq_true] at h ⊢
  exact fun a ha => h a (List.mem_of_mem_take ha)

theorem all_drop (p : Char → Bool) (s : List Char) (k : Nat) (h : s.all p = true) :
    (s.drop k).all p = true := by
  rw [List.all_eq_true] at h ⊢
  exact fun a ha => h a (List.mem_of_mem_drop ha)

theorem shardCheck_two (c0 c1 : List Char) :
    shardCheck [c0, c1] =
      (if c0 = ['1'] then
        if c1.length ≠ 1 then .error .Inconsistent else .ok c1
      else if c0 = ['2'] then
        if c1.length ≠ 2 then .error .Inconsistent else .ok c1
      else .error .Inconsistent) := rfl

theorem shardCheck_three (c0 c1 c2 : List Char) :
    shardCheck [c0, c1, c2] =
      (if c0 = ['3'] then
        if c2.length ≠ 3 ∨ c1 ≠ c2.take 1 then .error .Inconsistent else .ok c2
      else
        if c2.length < 4 ∨ c0 ≠ c2.take 2 ∨ c1 ≠ (c2.drop 2).take 2 then .error .Inconsistent
        else .ok c2) := rfl

theorem collectComponents_normal (l : List (List Char))
    (h : ∀ x ∈ l, x.all isAsciiChar = true) :
    collectComponents (l.map PathComponent.normal) = .ok l := by
  induction l with
  | nil => rfl
  | cons x xs ih =>
    simp only [List.map_cons, collectComponents, checkComponent]
    rw [if_pos (h x (by simp)), ih (fun y hy => h y (by simp [hy]))]

theorem from_index_path_compute (forbiddenNames : List (List Char))
    (comps : List (List Char)) (h : ∀ x ∈ comps, x.all isAsciiChar = true)
    (hlen3 : comps.length ≤ 3) :
    CrateName.from_index_path forbiddenNames (comps.map PathComponent.normal) =
      (match shardCheck comps with
      | .error e => .error e
      | .ok crate_name =>
        match CrateName.new forbiddenNames crate_name with
        | .ok n => .ok n
        | .error e => .error (.CrateName e)) := by
  have hdw : (comps.map PathComponent.normal).dropWhile (· = PathComponent.rootDir) =
      comps.map PathComponent.normal := by
    cases comps with
    | nil => rfl
    | cons x xs => simp [List.dropWhile]
  have hlm : (comps.map PathComponent.normal).length ≤ 3 := by simpa using hlen3
  simp only [CrateName.from_index_path, hdw, List.take_of_length_le hlm,
    collectComponents_normal comps h, List.drop_eq_nil_of_le hlm, ne_eq,
    not_true_eq_false, if_false]

/-- C1: for every name accepted by `CrateName::new`, parsing the produced
index path back yields the same name:
`CrateName::from_index_path(name.index_path())` succeeds and returns a
name equal to the original (for an arbitrary forbidden-name list). -/
theorem crate_name_index_path_round_trip (forbiddenNames : List (List Char))
    (s : List Char) (n : CrateName) (h : CrateName.new forbiddenNames s = .ok n) :
    CrateName.from_index_path forbiddenNames (n.index_path.map PathComponent.normal) =
      .ok n := by
  obtain ⟨hlow, hascii, ⟨c, t, hcons, halpha⟩, hlen, hallowed, hforb⟩ :=
    crateName_new_ok forbiddenNames s n h
  have hfix := crateName_new_fixpoint forbiddenNames s n h
  have hne : n.str ≠ [] := by rw [hcons]; simp
  have hpos : 0 < n.str.length := List.length_pos.mpr hne
  rcases hL : n.str.length with _ | _ | _ | _ | k
  · omega
  · -- length 1
    have hip : n.index_path = [['1'], n.str] := by
      unfold CrateName.index_path
      rw [hL]
    rw [hip, from_index_path_compute forbiddenNames [['1'], n.str]
      (by
        intro x hx
        simp only [List.mem_cons, List.not_mem_nil, or_false] at hx
        rcases hx with rfl | rfl
        · decide
        · exact hascii)
      (by simp)]
    simp only [show shardCheck [['1'], n.str] = .ok n.str from by
      rw [shardCheck_two, if_pos rfl, if_neg (by omega)], hfix]
  · -- length 2
    have hip : n.index_path = [['2'], n.str] := by
      unfold CrateName.index_path
      rw [hL]
    rw [hip, from_index_path_compute forbiddenNames [['2'], n.str]
      (by
        intro x hx
        simp only [List.mem_cons, List.not_mem_nil, or_false] at hx
        rcases hx with rfl | rfl
        · decide
        · exact hascii)
      (by simp)]
    simp only [show shardCheck [['2'], n.str] = .ok n.str from by
      rw [shardCheck_two, if_neg (by decide), if_pos rfl, if_neg (by omega)], hfix]
  · -- length 3
    have hip : n.index_path = [['3'], n.str.take 1, n.str] := by
      unfold CrateName.index_path
      rw [hL]
    rw [hip, from_index_path_compute forbiddenNames [['3'], n.str.take 1, n.str]
      (by
        intro x hx
        simp only [List.mem_cons, List.not_mem_nil, or_false] at hx
        rcases hx with rfl | rfl | rfl
        · decide
        · exact all_take _ _ _ hascii
        · exact hascii)
      (by simp)]
    simp only [show shardCheck [['3'], n.str.take 1, n.str] = .ok n.str from by
      rw [shardCheck_three, if_pos rfl, if_neg (by push_neg; exact ⟨by omega, rfl⟩)], hfix]
  · -- length at least 4
    have hk : 4 ≤ n.str.length := by omega
    have hip : n.index_path = [n.str.take 2, (n.str.drop 2).take 2, n.str] := by
      unfold CrateName.index_path
      rw [hL]
    rw [hip, from_index_path_compute forbiddenNames [n.str.take 2, (n.str.drop 2).take 2, n.str]
      (by
        intro x hx
        simp only [List.mem_cons, List.not_mem_nil, or_false] at hx
        rcases hx with rfl | rfl | rfl
        · exact all_take _ _ _ hascii
        · exact all_take _ _ _ (all_drop _ _ 2 hascii)
        · exact hascii)
      (by simp)]
    have htake2 : n.str.take 2 ≠ ['3'] := by
      intro heq
      have := congrArg List.length heq
      rw [length_take_eq n.str 2 (by omega)] at this
      simp at this
    simp only [show shardCheck [n.str.take 2, (n.str.drop 2).take 2, n.str] = .ok n.str from by
      rw [shardCheck_three, if_neg htake2, if_neg (by push_neg; exact ⟨by omega, rfl, rfl⟩)],
      hfix]

/-- Witness for C1 at the concrete name `"foo"`. -/
theorem crate_name_index_path_round_trip_witness :
    CrateName.new [] ['f', 'o', 'o'] = .ok ⟨['f', 'o', 'o']⟩ ∧
      CrateName.from_index_path []
          ((CrateName.index_path ⟨['f', 'o', 'o']⟩).map PathComponent.normal) =
        .ok ⟨['f', 'o', 'o']⟩ :=
  ⟨rfl, crate_name_index_path_round_trip [] ['f', 'o', 'o'] ⟨['f', 'o', 'o']⟩ rfl⟩

/-! ### C9: S3 archive object keys -/

/-- C9 (evidence of the divergence): at name `foo` and version `1.0.0` the
S3 storage reads the archive from key `crates/foo/1.0.0/foo.crate` but
writes it to key `foo/1.0.0/foo.crate`; the two key derivations differ. -/
theorem s3_crate_key_mismatch :
    S3Storage.read_crate_file_key ⟨['f', 'o', 'o']⟩ (Version.mkSimple 1 0 0) =
        "crates/foo/1.0.0/foo.crate".data ∧
      S3Storage.write_crate_file_key ⟨['f', 'o', 'o']⟩ (Version.mkSimple 1 0 0) =
        "foo/1.0.0/foo.crate".data ∧
      S3Storage.read_crate_file_key ⟨['f', 'o', 'o']⟩ (Version.mkSimple 1 0 0) ≠
        S3Storage.write_crate_file_key ⟨['f', 'o', 'o']⟩ (Version.mkSimple 1 0 0) := by
  refine ⟨by decide, by decide, by decide⟩

/-! ### C5: the `MinRustVersion` grammar -/

theorem comparatorParse_op (s : List Char) (op : SemverOp) (r : List Char)
    (h : parseOpPrefix s = some (op, r)) (c : Comparator)
    (hc : comparatorParse s = some c) : c.op = op := by
  simp only [comparatorParse, h] at hc
  cases hq : comparatorNums r with
  | none => simp [hq] at hc
  | some q =>
    simp only [hq, Option.map_some', Option.some.injEq] at hc
    rw [← hc]

theorem parseOpPrefix_caret (s r : List Char)
    (h : parseOpPrefix s = some (SemverOp.caret, r)) : s = '^' :: r := by
  cases s with
  | nil => simp [parseOpPrefix] at h
  | cons c t =>
    simp only [parseOpPrefix] at h
    repeat' split at h
    all_goals simp_all

/-- C5: `MinRustVersion::from_str` rejects every input containing `^`,
rejects every input that starts with an explicit comparator operator
token, and accepts the bare versions `1.70` and `1.70.0` (which the
comparator grammar defaults to the caret operator). -/
theorem min_rust_version_grammar :
    (∀ s : List Char, s.contains '^' = true → MinRustVersion.from_str s = .error .Op) ∧
      (∀ (s : List Char) (op : SemverOp) (r : List Char),
        parseOpPrefix s = some (op, r) → ∀ m, MinRustVersion.from_str s ≠ .ok m) ∧
      MinRustVersion.from_str "1.70".data = .ok ⟨1, some 70, none, []⟩ ∧
      MinRustVersion.from_str "1.70.0".data = .ok ⟨1, some 70, some 0, []⟩ := by
  refine ⟨?_, ?_, rfl, rfl⟩
  · intro s hs
    unfold MinRustVersion.from_str
    rw [if_pos hs]
  · intro s op r hop m hc
    by_cases hcar : s.contains '^' = true
    · unfold MinRustVersion.from_str at hc
      rw [if_pos hcar] at hc
      simp at hc
    · unfold MinRustVersion.from_str at hc
      rw [if_neg hcar] at hc
      cases hq : comparatorParse s with
      | none => simp [hq] at hc
      | some c =>
        simp only [hq] at hc
        have hco := comparatorParse_op s op r hop c hq
        by_cases hcaret : op = SemverOp.caret
        · subst hcaret
          refine hcar ?_
          rw [parseOpPrefix_caret s r hop]
          simp [List.contains]
        · rw [if_pos (by rw [hco]; exact hcaret)] at hc
          simp at hc

/-- Witness for C5: `^1.70` is rejected through the caret rule, `=1.70`
is rejected through the explicit-operator rule, and the two bare versions
are accepted. -/
theorem min_rust_version_grammar_witness :
    MinRustVersion.from_str "^1.70".data = .error .Op ∧
      MinRustVersion.from_str "=1.70".data ≠ .ok ⟨1, some 70, none, []⟩ :=
  ⟨min_rust_version_grammar.1 "^1.70".data rfl,
    min_rust_version_grammar.2.1 "=1.70".data SemverOp.exact "1.70".data rfl _⟩

/-! ### C8: total guarding of the publish framing -/

/-- C8: whenever the collected body is shorter than what the two 4-byte
little-endian length prefixes require, publish answers `400 Bad Request`,
leaves the storage state untouched and attempts no storage operation
(every body access in the code is a checked slice, which the total
`sliceGet` model reflects). -/
theorem publish_framing_guarded (deser : List Nat → Except (List Char) PublishRequest)
    (sha256hex : List Nat → List Char) (faults : Faults) (st : StorageState)
    (body_data : List Nat)
    (hshort : body_data.length < 4 + framingL1 body_data + 4 + framingL2 body_data) :
    (∃ errs, (put_publish_crate (.ok ()) deser sha256hex faults st body_data).result =
        .error ⟨400, errs⟩) ∧
      (put_publish_crate (.ok ()) deser sha256hex faults st body_data).state = st ∧
      (put_publish_crate (.ok ()) deser sha256hex faults st body_data).trace = [] := by
  have hL1 : u32FromLeBytes ((body_data.drop 0).take 4) = framingL1 body_data := rfl
  have hL2 : u32FromLeBytes ((body_data.drop (4 + framingL1 body_data)).take 4) =
      framingL2 body_data := rfl
  simp only [put_publish_crate]
  by_cases h1 : 0 + 4 ≤ body_data.length
  case neg =>
    simp only [show sliceGet body_data 0 4 = none from by simp only [sliceGet, if_neg h1]]
    refine ⟨⟨[], ?_⟩, ?_, ?_⟩ <;> trivial
  case pos =>
    simp only [show sliceGet body_data 0 4 = some ((body_data.drop 0).take 4) from by
      simp only [sliceGet, if_pos h1], hL1]
    by_cases h2 : 4 + framingL1 body_data ≤ body_data.length
    case neg =>
      simp only [show sliceGet body_data 4 (framingL1 body_data) = none from by
        simp only [sliceGet, if_neg h2]]
      refine ⟨⟨[], ?_⟩, ?_, ?_⟩ <;> trivial
    case pos =>
      simp only [show sliceGet body_data 4 (framingL1 body_data) =
          some ((body_data.drop 4).take (framingL1 body_data)) from by
        simp only [sliceGet, if_pos h2]]
      cases hd : deser ((body_data.drop 4).take (framingL1 body_data)) with
      | error e =>
        simp only [hd]
        refine ⟨⟨[e], ?_⟩, ?_, ?_⟩ <;> trivial
      | ok publish_request =>
        simp only [hd]
        by_cases h3 : 4 + framingL1 body_data + 4 ≤ body_data.length
        case neg =>
          simp only [show sliceGet body_data (4 + framingL1 body_data) 4 = none from by
            simp only [sliceGet, if_neg h3]]
          refine ⟨⟨[], ?_⟩, ?_, ?_⟩ <;> trivial
        case pos =>
          have hfin : ¬(4 + framingL1 body_data + 4 + framingL2 body_data ≤
              body_data.length) := by omega
          simp only [show sliceGet body_data (4 + framingL1 body_data) 4 =
              some ((body_data.drop (4 + framingL1 body_data)).take 4) from by
            simp only [sliceGet, if_pos h3], hL2]
          simp only [show sliceGet body_data (4 + framingL1 body_data + 4)
              (framingL2 body_data) = none from by
            simp only [sliceGet, if_neg hfin]]
          refine ⟨⟨[], ?_⟩, ?_, ?_⟩ <;> trivial

/-- Witness for C8 at the empty body. -/
theorem publish_framing_guarded_witness :
    (∃ errs, (put_publish_crate (.ok ()) (fun _ => .error [])
        (fun _ => []) Faults.none ⟨fun _ => none, fun _ _ => none⟩ []).result =
          .error ⟨400, errs⟩) ∧
      (put_publish_crate (.ok ()) (fun _ => .error []) (fun _ => []) Faults.none
          ⟨fun _ => none, fun _ _ => none⟩ []).state =
        (⟨fun _ => none, fun _ _ => none⟩ : StorageState) ∧
      (put_publish_crate (.ok ()) (fun _ => .error []) (fun _ => []) Faults.none
          ⟨fun _ => none, fun _ _ => none⟩ []).trace = [] :=
  publish_framing_guarded (fun _ => .error []) (fun _ => []) Faults.none
    ⟨fun _ => none, fun _ _ => none⟩ [] (by decide)

/-! ### Publish characterizations (for C2 and C3) -/

theorem publishCore_eq_withIndex (sha256hex : List Nat → List Char) (faults : Faults)
    (st : StorageState) (req : PublishRequest) (data : List Nat)
    (hrf : faults.indexReadError req.name = false) :
    publishCore sha256hex faults st req data =
      publishWithIndex faults st req.name (stripBuild req.vers) req (sha256hex data)
        (if req.vers.build ≠ [] then [buildMetaWarning req.vers.build] else [])
        data ⟨entriesFor st req.name⟩ := by
  unfold publishCore
  simp only [read_index_file, hrf, Bool.false_eq_true, if_false]
  cases hfile : st.indexFiles req.name with
  | some f => simp only [entriesFor, hfile]
  | none => simp only [entriesFor, hfile]

theorem publishWithIndex_dup (faults : Faults) (st : StorageState) (name : CrateName)
    (ver : Version) (req : PublishRequest) (cksum : List Char)
    (warnings : List (List Char)) (data : List Nat) (entries : List IndexEntry)
    (hdup : entries.any (fun e => e.vers = ver) = true) :
    publishWithIndex faults st name ver req cksum warnings data ⟨entries⟩ =
      ⟨.error ⟨400, [dupMessage name ver]⟩, st, [.readIndex name]⟩ := by
  unfold publishWithIndex
  rw [if_pos hdup]

theorem publishWithIndex_ok (faults : Faults) (st : StorageState) (name : CrateName)
    (ver : Version) (req : PublishRequest) (cksum : List Char)
    (warnings : List (List Char)) (data : List Nat) (entries : List IndexEntry)
    (hdup : entries.any (fun e => e.vers = ver) = false)
    (hcw : faults.crateWriteError name ver = false)
    (hiw : faults.indexWriteError name = false) :
    publishWithIndex faults st name ver req cksum warnings data ⟨entries⟩ =
      ⟨.ok ⟨⟨[], [], warnings⟩⟩,
        updateIndex (updateCrate st name ver data) name
          ⟨entries ++ [mkIndexEntry name ver req cksum]⟩,
        [.readIndex name, .writeCrate name ver, .writeIndex name]⟩ := by
  unfold publishWithIndex
  rw [if_neg (by rw [hdup]; exact Bool.false_ne_true)]
  simp only [write_crate_file, write_index_file, hcw, hiw, Bool.false_eq_true, if_false]

theorem publishWithIndex_ok_elim (faults : Faults) (st : StorageState) (name : CrateName)
    (ver : Version) (req : PublishRequest) (cksum : List Char)
    (warnings : List (List Char)) (data : List Nat) (entries : List IndexEntry)
    (resp : PublishResponse)
    (h : (publishWithIndex faults st name ver req cksum warnings data ⟨entries⟩).result =
      .ok resp) :
    entries.any (fun e => e.vers = ver) = false ∧
      faults.crateWriteError name ver = false ∧ faults.indexWriteError name = false := by
  unfold publishWithIndex at h
  by_cases hdup : entries.any (fun e => e.vers = ver) = true
  · rw [if_pos hdup] at h
    simp at h
  · rw [if_neg hdup] at h
    refine ⟨by simpa using hdup, ?_⟩
    by_cases hcw : faults.crateWriteError name ver = true
    · simp [write_crate_file, hcw] at h
    · refine ⟨by simpa using hcw, ?_⟩
      by_cases hiw : faults.indexWriteError name = true
      · simp [write_crate_file, write_index_file, hcw, hiw] at h
      · simpa using hiw

theorem publishCore_shapes (sha256hex : List Nat → List Char) (faults : Faults)
    (st : StorageState) (req : PublishRequest) (data : List Nat) :
    ((publishCore sha256hex faults st req data).trace = [.readIndex req.name] ∧
      (publishCore sha256hex faults st req data).state = st ∧
      ∃ e, (publishCore sha256hex faults st req data).result = .error e) ∨
    ((publishCore sha256hex faults st req data).trace =
        [.readIndex req.name, .writeCrate req.name (stripBuild req.vers)] ∧
      (publishCore sha256hex faults st req data).state = st ∧
      faults.crateWriteError req.name (stripBuild req.vers) = true ∧
      ∃ e, (publishCore sha256hex faults st req data).result = .error e) ∨
    ((publishCore sha256hex faults st req data).trace =
        [.readIndex req.name, .writeCrate req.name (stripBuild req.vers),
          .writeIndex req.name] ∧
      faults.crateWriteError req.name (stripBuild req.vers) = false ∧
      (publishCore sha256hex faults st req data).state.crateFiles req.name
        (stripBuild req.vers) = some data ∧
      (publishCore sha256hex faults st req data).state.indexFiles =
        (if faults.indexWriteError req.name = true then st.indexFiles
         else (updateIndex st req.name ⟨entriesFor st req.name ++
           [mkIndexEntry req.name (stripBuild req.vers) req (sha256hex data)]⟩).indexFiles)) := by
  by_cases hrf : faults.indexReadError req.name = true
  · left
    unfold publishCore
    simp only [read_index_file, hrf, if_true]
    exact ⟨by trivial, by trivial, _, rfl⟩
  · rw [publishCore_eq_withIndex sha256hex faults st req data (by simpa using hrf)]
    unfold publishWithIndex
    by_cases hdup : (entriesFor st req.name).any (fun e => e.vers = stripBuild req.vers) = true
    · left
      rw [if_pos hdup]
      exact ⟨by trivial, by trivial, _, rfl⟩
    · rw [if_neg hdup]
      by_cases hcw : faults.crateWriteError req.name (stripBuild req.vers) = true
      · right; left
        simp only [write_crate_file, hcw, if_true]
        exact ⟨by trivial, by trivial, by trivial, _, rfl⟩
      · by_cases hiw : faults.indexWriteError req.name = true
        · right; right
          simp only [write_crate_file, write_index_file, hcw, hiw, Bool.false_eq_true,
            if_false, if_true]
          refine ⟨by trivial, by trivial, by simp [updateCrate, updateIndex], ?_⟩
          trivial
        · right; right
          simp only [write_crate_file, write_index_file, hcw, hiw, Bool.false_eq_true,
            if_false]
          refine ⟨by trivial, by trivial, by simp [updateCrate, updateIndex], ?_⟩
          trivial

theorem put_publish_cases (authorize : Except ErrorResponse Unit)
    (deser : List Nat → Except (List Char) PublishRequest)
    (sha256hex : List Nat → List Char) (faults : Faults) (st : StorageState)
    (body_data : List Nat) :
    ((put_publish_crate authorize deser sha256hex faults st body_data).trace = [] ∧
      (put_publish_crate authorize deser sha256hex faults st body_data).state = st) ∨
    ∃ req data, put_publish_crate authorize deser sha256hex faults st body_data =
      publishCore sha256hex faults st req data := by
  unfold put_publish_crate
  split
  · exact Or.inl ⟨rfl, rfl⟩
  · split
    · exact Or.inl ⟨rfl, rfl⟩
    · split
      · exact Or.inl ⟨rfl, rfl⟩
      · split
        · exact Or.inl ⟨rfl, rfl⟩
        · split
          · exact Or.inl ⟨rfl, rfl⟩
          · split
            · exact Or.inl ⟨rfl, rfl⟩
            · exact Or.inr ⟨_, _, rfl⟩

theorem countVersion_eq_zero (ver : Version) (l : List IndexEntry)
    (h : l.any (fun e => e.vers = ver) = false) : countVersion ver l = 0 := by
  unfold countVersion
  rw [List.length_eq_zero, List.filter_eq_nil_iff]
  intro a ha
  rw [List.any_eq_false] at h
  simpa using h a ha

theorem countVersion_append_one (ver : Version) (l : List IndexEntry) (e : IndexEntry)
    (hl : countVersion ver l = 0) (he : e.vers = ver) :
    countVersion ver (l ++ [e]) = 1 := by
  unfold countVersion at hl ⊢
  rw [List.filter_append, List.length_append, hl]
  simp [he]

theorem entriesFor_updateIndex_self (st : StorageState) (name : CrateName) (f : IndexFile) :
    entriesFor (updateIndex st name f) name = f.entries := by
  simp [entriesFor, updateIndex]

/-! ### C2: duplicate versions are rejected with 400 and nothing is written -/

/-- C2: if the index already holds an entry whose `vers` equals the
uploaded version (build metadata dropped), publish answers
`400 Bad Request` with detail `Crate <name> already has version <v>` and
leaves the storage state untouched; consequently a second publish of the
same `(P, V)` after a successful one is rejected with that message, the
state keeps exactly one index entry for `V`, and nothing more is
written. -/
theorem publish_duplicate_version_rejected :
    (∀ (sha256hex : List Nat → List Char) (faults : Faults) (st : StorageState)
        (req : PublishRequest) (data : List Nat),
      faults.indexReadError req.name = false →
      (entriesFor st req.name).any (fun e => e.vers = stripBuild req.vers) = true →
      (publishCore sha256hex faults st req data).result =
          .error ⟨400, [dupMessage req.name (stripBuild req.vers)]⟩ ∧
        (publishCore sha256hex faults st req data).state = st ∧
        (publishCore sha256hex faults st req data).trace = [.readIndex req.name]) ∧
    (∀ (sha256hex : List Nat → List Char) (faults : Faults) (st : StorageState)
        (req₁ : PublishRequest) (data₁ : List Nat) (req₂ : PublishRequest)
        (data₂ : List Nat) (resp : PublishResponse),
      req₂.name = req₁.name → stripBuild req₂.vers = stripBuild req₁.vers →
      (publishCore sha256hex faults st req₁ data₁).result = .ok resp →
      countVersion (stripBuild req₁.vers)
          (entriesFor (publishCore sha256hex faults st req₁ data₁).state req₁.name) = 1 ∧
        (publishCore sha256hex faults (publishCore sha256hex faults st req₁ data₁).state
            req₂ data₂).result =
          .error ⟨400, [dupMessage req₂.name (stripBuild req₂.vers)]⟩ ∧
        (publishCore sha256hex faults (publishCore sha256hex faults st req₁ data₁).state
            req₂ data₂).state = (publishCore sha256hex faults st req₁ data₁).state) := by
  constructor
  · intro sha256hex faults st req data hrf hdup
    rw [publishCore_eq_withIndex sha256hex faults st req data hrf,
      publishWithIndex_dup _ _ _ _ _ _ _ _ _ hdup]
    exact ⟨rfl, rfl, rfl⟩
  · intro sha256hex faults st req₁ data₁ req₂ data₂ resp hn hv h1
    have hrf : faults.indexReadError req₁.name = false := by
      by_cases hx : faults.indexReadError req₁.name = true
      · exfalso
        unfold publishCore at h1
        simp only [read_index_file, hx, if_true] at h1
        simp at h1
      · simpa using hx
    rw [publishCore_eq_withIndex sha256hex faults st req₁ data₁ hrf] at h1 ⊢
    obtain ⟨hdup, hcw, hiw⟩ := publishWithIndex_ok_elim _ _ _ _ _ _ _ _ _ _ h1
    rw [publishWithIndex_ok _ _ _ _ _ _ _ _ _ hdup hcw hiw]
    refine ⟨?_, ?_, ?_⟩
    · rw [entriesFor_updateIndex_self]
      exact countVersion_append_one _ _ _ (countVersion_eq_zero _ _ hdup) rfl
    · have hrf₂ : faults.indexReadError req₂.name = false := by rw [hn]; exact hrf
      rw [publishCore_eq_withIndex sha256hex faults _ req₂ data₂ hrf₂]
      rw [publishWithIndex_dup _ _ _ _ _ _ _ _ _ (by
        rw [hn, entriesFor_updateIndex_self, List.any_eq_true]
        exact ⟨mkIndexEntry req₁.name (stripBuild req₁.vers) req₁ (sha256hex data₁),
          by simp, by simp [mkIndexEntry, hv]⟩)]
    · have hrf₂ : faults.indexReadError req₂.name = false := by rw [hn]; exact hrf
      rw [publishCore_eq_withIndex sha256hex faults _ req₂ data₂ hrf₂]
      rw [publishWithIndex_dup _ _ _ _ _ _ _ _ _ (by
        rw [hn, entriesFor_updateIndex_self, List.any_eq_true]
        exact ⟨mkIndexEntry req₁.name (stripBuild req₁.vers) req₁ (sha256hex data₁),
          by simp, by simp [mkIndexEntry, hv]⟩)]

/-- Witness for C2: publishing crate `a` version `1.0.0` into empty
storage and then publishing it again leaves exactly one index entry for
`1.0.0`, and the second call is the 400 duplicate rejection. -/
theorem publish_duplicate_version_rejected_witness :
    countVersion (stripBuild sampleRequest.vers)
        (entriesFor (publishCore (fun _ => []) Faults.none emptyStorage sampleRequest
          [0]).state sampleRequest.name) = 1 ∧
      (publishCore (fun _ => []) Faults.none
          (publishCore (fun _ => []) Faults.none emptyStorage sampleRequest [0]).state
          sampleRequest [0]).result =
        .error ⟨400, [dupMessage sampleRequest.name (stripBuild sampleRequest.vers)]⟩ :=
  ⟨(publish_duplicate_version_rejected.2 (fun _ => []) Faults.none emptyStorage
      sampleRequest [0] sampleRequest [0] ⟨⟨[], [], []⟩⟩ rfl rfl rfl).1,
    (publish_duplicate_version_rejected.2 (fun _ => []) Faults.none emptyStorage
      sampleRequest [0] sampleRequest [0] ⟨⟨[], [], []⟩⟩ rfl rfl rfl).2.1⟩

/-! ### C3: the archive write happens strictly before the index write -/

/-- C3: within a single publish execution, an index write only ever
happens after the archive write for the same crate succeeded (the trace
is exactly read-index, write-archive, write-index, and the archive object
is present in the final state); and when the archive write fails the
publish aborts with an error, no index write is attempted, and the stored
index files are untouched. -/
theorem publish_archive_write_precedes_index_write
    (authorize : Except ErrorResponse Unit)
    (deser : List Nat → Except (List Char) PublishRequest)
    (sha256hex : List Nat → List Char) (faults : Faults) (st : StorageState)
    (body_data : List Nat) :
    (∀ n, StorageOp.writeIndex n ∈
        (put_publish_crate authorize deser sha256hex faults st body_data).trace →
      ∃ v, (put_publish_crate authorize deser sha256hex faults st body_data).trace =
          [.readIndex n, .writeCrate n v, .writeIndex n] ∧
        (put_publish_crate authorize deser sha256hex faults st body_data).state.crateFiles
          n v ≠ none) ∧
    (∀ n v, StorageOp.writeCrate n v ∈
        (put_publish_crate authorize deser sha256hex faults st body_data).trace →
      faults.crateWriteError n v = true →
      (∃ e, (put_publish_crate authorize deser sha256hex faults st body_data).result =
          .error e) ∧
        StorageOp.writeIndex n ∉
          (put_publish_crate authorize deser sha256hex faults st body_data).trace ∧
        (put_publish_crate authorize deser sha256hex faults st body_data).state.indexFiles =
          st.indexFiles) := by
  rcases put_publish_cases authorize deser sha256hex faults st body_data with
    ⟨htr, hst⟩ | ⟨req, data, heq⟩
  · constructor
    · intro n hm
      rw [htr] at hm
      simp at hm
    · intro n v hm
      rw [htr] at hm
      simp at hm
  · rw [heq]
    rcases publishCore_shapes sha256hex faults st req data with
      ⟨htr, hst, e, hres⟩ | ⟨htr, hst, hcw, e, hres⟩ | ⟨htr, hcw, hcf, hif⟩
    · constructor
      · intro n hm
        rw [htr] at hm
        simp at hm
      · intro n v hm
        rw [htr] at hm
        simp at hm
    · constructor
      · intro n hm
        rw [htr] at hm
        simp at hm
      · intro n v hm hf
        rw [htr] at hm
        simp only [List.mem_cons, List.not_mem_nil, or_false] at hm
        rcases hm with hm | hm
        · exact absurd hm (by simp)
        · simp only [StorageOp.writeCrate.injEq] at hm
          obtain ⟨rfl, rfl⟩ := hm
          exact ⟨⟨e, hres⟩, by rw [htr]; simp, by rw [hst]⟩
    · constructor
      · intro n hm
        rw [htr] at hm
        simp only [List.mem_cons, List.not_mem_nil, or_false] at hm
        rcases hm with hm | hm | hm
        · exact absurd hm (by simp)
        · exact absurd hm (by simp)
        · simp only [StorageOp.writeIndex.injEq] at hm
          subst hm
          exact ⟨stripBuild req.vers, htr, by rw [hcf]; simp⟩
      · intro n v hm hf
        rw [htr] at hm
        simp only [List.mem_cons, List.not_mem_nil, or_false] at hm
        rcases hm with hm | hm | hm
        · exact absurd hm (by simp)
        · simp only [StorageOp.writeCrate.injEq] at hm
          obtain ⟨rfl, rfl⟩ := hm
          rw [hcw] at hf
          exact absurd hf (by simp)
        · exact absurd hm (by simp)

/-- Witness for C3: with an injected archive-write fault, a well-framed
publish of crate `a` errors, attempts no index write, and leaves the
index map untouched. -/
theorem publish_archive_write_precedes_index_write_witness :
    (∃ e, (put_publish_crate (.ok ()) (fun _ => .ok sampleRequest) (fun _ => [])
        ⟨fun _ => false, fun _ _ => true, fun _ => false⟩ emptyStorage
        [0, 0, 0, 0, 0, 0, 0, 0]).result = .error e) ∧
      StorageOp.writeIndex sampleRequest.name ∉
        (put_publish_crate (.ok ()) (fun _ => .ok sampleRequest) (fun _ => [])
          ⟨fun _ => false, fun _ _ => true, fun _ => false⟩ emptyStorage
          [0, 0, 0, 0, 0, 0, 0, 0]).trace ∧
      (put_publish_crate (.ok ()) (fun _ => .ok sampleRequest) (fun _ => [])
          ⟨fun _ => false, fun _ _ => true, fun _ => false⟩ emptyStorage
          [0, 0, 0, 0, 0, 0, 0, 0]).state.indexFiles = emptyStorage.indexFiles :=
  (publish_archive_write_precedes_index_write (.ok ()) (fun _ => .ok sampleRequest)
    (fun _ => []) ⟨fun _ => false, fun _ _ => true, fun _ => false⟩ emptyStorage
    [0, 0, 0, 0, 0, 0, 0, 0]).2 sampleRequest.name (stripBuild sampleRequest.vers)
    (by decide) rfl

/-! ### C7: yank and unyank are idempotent on the yanked flag -/

theorem setYankedFirst_split (b : Bool) (V : Version) (l1 l2 : List IndexEntry)
    (e : IndexEntry) (he : e.vers = V) (hl1 : ∀ x ∈ l1, x.vers ≠ V) :
    setYankedFirst b V (l1 ++ e :: l2) = some (l1 ++ { e with yanked := b } :: l2) := by
  induction l1 with
  | nil =>
    simp only [List.nil_append, setYankedFirst]
    rw [if_pos he]
  | cons x xs ih =>
    simp only [List.cons_append, setYankedFirst, List.append_eq]
    rw [if_neg (hl1 x (by simp))]
    rw [ih (fun y hy => hl1 y (by simp [hy]))]
    rfl

theorem yankCore_ok (forbiddenNames : List (List Char)) (b : Bool) (faults : Faults)
    (st : StorageState) (nameStr verStr : List Char) (P : CrateName) (V : Version)
    (file : IndexFile) (entries : List IndexEntry)
    (hname : CrateName.new forbiddenNames nameStr = .ok P)
    (hver : versionParse verStr = some V)
    (hrf : faults.indexReadError P = false)
    (hiw : faults.indexWriteError P = false)
    (hfile : st.indexFiles P = some file)
    (hset : setYankedFirst b V file.entries = some entries) :
    yankCore forbiddenNames b faults st nameStr verStr =
      ⟨.ok (), updateIndex st P ⟨entries⟩, [.readIndex P, .writeIndex P]⟩ := by
  unfold yankCore
  simp only [hname, hver, read_index_file, hrf, Bool.false_eq_true, if_false, hfile, hset,
    write_index_file, hiw]

/-- C7: when the index of `P` holds an entry for version `V` (split as
`l1 ++ e :: l2` with the first match at `e`), yank succeeds and flips only
that entry's `yanked` flag to `true`, a second yank leaves the same state,
other packages' index files and all archives are untouched; unyank behaves
the same way with `false`. -/
theorem yank_unyank_idempotent (forbiddenNames : List (List Char)) (faults : Faults)
    (st : StorageState) (nameStr verStr : List Char) (P : CrateName) (V : Version)
    (hname : CrateName.new forbiddenNames nameStr = .ok P)
    (hver : versionParse verStr = some V)
    (hrf : faults.indexReadError P = false) (hiw : faults.indexWriteError P = false)
    (file : IndexFile) (hfile : st.indexFiles P = some file)
    (l1 l2 : List IndexEntry) (e : IndexEntry) (hsplit : file.entries = l1 ++ e :: l2)
    (he : e.vers = V) (hl1 : ∀ x ∈ l1, x.vers ≠ V) :
    (delete_yank_crate (.ok ()) forbiddenNames faults st nameStr verStr).result =
        .ok ⟨true⟩ ∧
      (delete_yank_crate (.ok ()) forbiddenNames faults st nameStr
          verStr).state.indexFiles P = some ⟨l1 ++ { e with yanked := true } :: l2⟩ ∧
      (delete_yank_crate (.ok ()) forbiddenNames faults
          (delete_yank_crate (.ok ()) forbiddenNames faults st nameStr verStr).state
          nameStr verStr).result = .ok ⟨true⟩ ∧
      (delete_yank_crate (.ok ()) forbiddenNames faults
          (delete_yank_crate (.ok ()) forbiddenNames faults st nameStr verStr).state
          nameStr verStr).state.indexFiles P =
        some ⟨l1 ++ { e with yanked := true } :: l2⟩ ∧
      (∀ q, q ≠ P →
        (delete_yank_crate (.ok ()) forbiddenNames faults st nameStr
          verStr).state.indexFiles q = st.indexFiles q) ∧
      (delete_yank_crate (.ok ()) forbiddenNames faults st nameStr verStr).state.crateFiles =
        st.crateFiles ∧
      (put_unyank_crate (.ok ()) forbiddenNames faults st nameStr verStr).result =
        .ok ⟨true⟩ ∧
      (put_unyank_crate (.ok ()) forbiddenNames faults st nameStr
          verStr).state.indexFiles P = some ⟨l1 ++ { e with yanked := false } :: l2⟩ ∧
      (put_unyank_crate (.ok ()) forbiddenNames faults
          (put_unyank_crate (.ok ()) forbiddenNames faults st nameStr verStr).state
          nameStr verStr).result = .ok ⟨true⟩ ∧
      (put_unyank_crate (.ok ()) forbiddenNames faults
          (put_unyank_crate (.ok ()) forbiddenNames faults st nameStr verStr).state
          nameStr verStr).state.indexFiles P =
        some ⟨l1 ++ { e with yanked := false } :: l2⟩ := by
  have hset1 : setYankedFirst true V file.entries =
      some (l1 ++ { e with yanked := true } :: l2) := by
    rw [hsplit]
    exact setYankedFirst_split true V l1 l2 e he hl1
  have hset0 : setYankedFirst false V file.entries =
      some (l1 ++ { e with yanked := false } :: l2) := by
    rw [hsplit]
    exact setYankedFirst_split false V l1 l2 e he hl1
  have hy1 := yankCore_ok forbiddenNames true faults st nameStr verStr P V file _
    hname hver hrf hiw hfile hset1
  have hu1 := yankCore_ok forbiddenNames false faults st nameStr verStr P V file _
    hname hver hrf hiw hfile hset0
  have hd1 : delete_yank_crate (.ok ()) forbiddenNames faults st nameStr verStr =
      ⟨.ok ⟨true⟩, updateIndex st P ⟨l1 ++ { e with yanked := true } :: l2⟩,
        [.readIndex P, .writeIndex P]⟩ := by
    unfold delete_yank_crate
    simp only [hy1]
  have hp1 : put_unyank_crate (.ok ()) forbiddenNames faults st nameStr verStr =
      ⟨.ok ⟨true⟩, updateIndex st P ⟨l1 ++ { e with yanked := false } :: l2⟩,
        [.readIndex P, .writeIndex P]⟩ := by
    unfold put_unyank_crate
    simp only [hu1]
  -- second applications start from the updated states
  have hfile1 : (updateIndex st P ⟨l1 ++ { e with yanked := true } :: l2⟩).indexFiles P =
      some ⟨l1 ++ { e with yanked := true } :: l2⟩ := by
    simp [updateIndex]
  have hfile0 : (updateIndex st P ⟨l1 ++ { e with yanked := false } :: l2⟩).indexFiles P =
      some ⟨l1 ++ { e with yanked := false } :: l2⟩ := by
    simp [updateIndex]
  have hset1' : setYankedFirst true V (l1 ++ { e with yanked := true } :: l2) =
      some (l1 ++ { e with yanked := true } :: l2) :=
    setYankedFirst_split true V l1 l2 { e with yanked := true } he hl1
  have hset0' : setYankedFirst false V (l1 ++ { e with yanked := false } :: l2) =
      some (l1 ++ { e with yanked := false } :: l2) :=
    setYankedFirst_split false V l1 l2 { e with yanked := false } he hl1
  have hy2 := yankCore_ok forbiddenNames true faults
    (updateIndex st P ⟨l1 ++ { e with yanked := true } :: l2⟩) nameStr verStr P V
    ⟨l1 ++ { e with yanked := true } :: l2⟩ _ hname hver hrf hiw hfile1 hset1'
  have hu2 := yankCore_ok forbiddenNames false faults
    (updateIndex st P ⟨l1 ++ { e with yanked := false } :: l2⟩) nameStr verStr P V
    ⟨l1 ++ { e with yanked := false } :: l2⟩ _ hname hver hrf hiw hfile0 hset0'
  have hd2 : delete_yank_crate (.ok ()) forbiddenNames faults
      (updateIndex st P ⟨l1 ++ { e with yanked := true } :: l2⟩) nameStr verStr =
      ⟨.ok ⟨true⟩, updateIndex (updateIndex st P ⟨l1 ++ { e with yanked := true } :: l2⟩) P
        ⟨l1 ++ { e with yanked := true } :: l2⟩, [.readIndex P, .writeIndex P]⟩ := by
    unfold delete_yank_crate
    simp only [hy2]
  have hp2 : put_unyank_crate (.ok ()) forbiddenNames faults
      (updateIndex st P ⟨l1 ++ { e with yanked := false } :: l2⟩) nameStr verStr =
      ⟨.ok ⟨true⟩, updateIndex (updateIndex st P ⟨l1 ++ { e with yanked := false } :: l2⟩) P
        ⟨l1 ++ { e with yanked := false } :: l2⟩, [.readIndex P, .writeIndex P]⟩ := by
    unfold put_unyank_crate
    simp only [hu2]
  rw [hd1]
  refine ⟨rfl, hfile1, ?_, ?_, ?_, rfl, ?_⟩
  · rw [hd2]
  · rw [hd2]
    simp [updateIndex]
  · intro q hq
    simp [updateIndex, hq]
  · rw [hp1]
    refine ⟨rfl, hfile0, ?_, ?_⟩
    · rw [hp2]
    · rw [hp2]
      simp [updateIndex]

/-- Witness for C7: yanking crate `a` version `1.0.0` once and twice in a
one-entry store, and the matching unyank pair. -/
theorem yank_unyank_idempotent_witness :
    (delete_yank_crate (.ok ()) [] Faults.none sampleYankState ['a']
        "1.0.0".data).result = .ok ⟨true⟩ ∧
      (delete_yank_crate (.ok ()) [] Faults.none sampleYankState ['a']
          "1.0.0".data).state.indexFiles ⟨['a']⟩ =
        some ⟨[{ sampleEntry with yanked := true }]⟩ ∧
      (put_unyank_crate (.ok ()) [] Faults.none sampleYankState ['a']
          "1.0.0".data).state.indexFiles ⟨['a']⟩ =
        some ⟨[{ sampleEntry with yanked := false }]⟩ :=
  have h := yank_unyank_idempotent [] Faults.none sampleYankState ['a'] "1.0.0".data
    ⟨['a']⟩ ⟨1, 0, 0, [], []⟩ rfl rfl rfl rfl ⟨[sampleEntry]⟩ rfl [] [] sampleEntry rfl rfl
    (by intro x hx; simp at hx)
  ⟨h.1, h.2.1, h.2.2.2.2.2.2.2.1⟩

/-! ### UTF-8 round trip -/

theorem ofNat_toNat_char (c : Char) : Char.ofNat c.toNat = c := by
  rw [char_eq_iff]
  exact toNat_ofNat_valid _ (char_valid c)

theorem utf8Step_encodeChar (c : Char) (rest : List Nat) :
    ∃ b t, utf8EncodeChar c = b :: t ∧ utf8Step b (t ++ rest) = some (c, rest) := by
  have hv := char_valid c
  by_cases h1 : c.toNat < 0x80
  · refine ⟨c.toNat, [], by simp [utf8EncodeChar, h1], ?_⟩
    unfold utf8Step
    rw [if_pos h1, ofNat_toNat_char]
    rfl
  · by_cases h2 : c.toNat < 0x800
    · refine ⟨0xC0 + c.toNat / 0x40, [0x80 + c.toNat % 0x40],
        by simp [utf8EncodeChar, h1, h2], ?_⟩
      unfold utf8Step
      rw [if_neg (by omega), if_neg (by omega), if_pos (by omega)]
      simp only [List.cons_append, List.nil_append]
      rw [if_pos (show isCont (0x80 + c.toNat % 0x40) = true by
        simp only [isCont, decide_eq_true_eq]; omega)]
      simp only [Nat.add_sub_cancel_left]
      rw [show c.toNat / 0x40 * 0x40 + c.toNat % 0x40 = c.toNat by omega, ofNat_toNat_char]
    · by_cases h3 : c.toNat < 0x10000
      · refine ⟨0xE0 + c.toNat / 0x1000,
          [0x80 + c.toNat / 0x40 % 0x40, 0x80 + c.toNat % 0x40],
          by simp [utf8EncodeChar, h1, h2, h3], ?_⟩
        unfold utf8Step
        rw [if_neg (by omega), if_neg (by omega), if_neg (by omega), if_pos (by omega)]
        simp only [List.cons_append, List.nil_append]
        rw [if_pos (show isCont (0x80 + c.toNat / 0x40 % 0x40) = true ∧
            isCont (0x80 + c.toNat % 0x40) = true by
          constructor <;> (simp only [isCont, decide_eq_true_eq]; omega))]
        simp only [Nat.add_sub_cancel_left]
        rw [show c.toNat / 0x1000 * 0x1000 + c.toNat / 0x40 % 0x40 * 0x40 + c.toNat % 0x40 =
          c.toNat by omega]
        rw [if_neg (by rcases hv with h | h <;> omega), ofNat_toNat_char]
      · have hlt : c.toNat < 0x110000 := by rcases hv with h | h <;> omega
        refine ⟨0xF0 + c.toNat / 0x40000,
          [0x80 + c.toNat / 0x1000 % 0x40, 0x80 + c.toNat / 0x40 % 0x40,
            0x80 + c.toNat % 0x40],
          by simp [utf8EncodeChar, h1, h2, h3], ?_⟩
        unfold utf8Step
        rw [if_neg (by omega), if_neg (by omega), if_neg (by omega), if_neg (by omega),
          if_pos (by omega)]
        simp only [List.cons_append, List.nil_append]
        rw [if_pos (show isCont (0x80 + c.toNat / 0x1000 % 0x40) = true ∧
            isCont (0x80 + c.toNat / 0x40 % 0x40) = true ∧
            isCont (0x80 + c.toNat % 0x40) = true by
          refine ⟨?_, ?_, ?_⟩ <;> (simp only [isCont, decide_eq_true_eq]; omega))]
        simp only [Nat.add_sub_cancel_left]
        rw [show c.toNat / 0x40000 * 0x40000 + c.toNat / 0x1000 % 0x40 * 0x1000 +
          c.toNat / 0x40 % 0x40 * 0x40 + c.toNat % 0x40 = c.toNat by omega]
        rw [if_neg (by omega), ofNat_toNat_char]

theorem utf8DecodeAux_encode (s : List Char) (fuel : Nat)
    (h : (utf8Encode s).length ≤ fuel) :
    utf8DecodeAux fuel (utf8Encode s) = some s := by
  induction s generalizing fuel with
  | nil => rw [show utf8Encode [] = [] from rfl]; cases fuel <;> rfl
  | cons c cs ih =>
    have hsplit : utf8Encode (c :: cs) = utf8EncodeChar c ++ utf8Encode cs := by
      simp [utf8Encode]
    obtain ⟨b, t, hbt, hstep⟩ := utf8Step_encodeChar c (utf8Encode cs)
    rw [hsplit, hbt] at h ⊢
    simp only [List.cons_append] at h ⊢
    cases fuel with
    | zero => simp at h
    | succ f =>
      simp only [utf8DecodeAux, hstep]
      rw [ih f (by simp [List.length_append] at h ⊢; omega)]
      rfl

theorem utf8Decode_encode (s : List Char) : utf8Decode (utf8Encode s) = some s :=
  utf8DecodeAux_encode s (utf8Encode s).length le_rfl

/-! ### `str::lines` and `str::trim_end` on rendered index bytes -/

theorem splitNl_no_nl (l : List Char) (h : '\x0a' ∉ l) : splitNl l = [l] := by
  induction l with
  | nil => rfl
  | cons c cs ih =>
    have hc : ¬(c = '\x0a') := fun hc => h (by rw [hc]; exact List.mem_cons_self _ _)
    simp only [splitNl]
    rw [if_neg hc, ih (fun hm => h (List.mem_cons_of_mem c hm))]

theorem splitNl_append (l r : List Char) (h : '\x0a' ∉ l) :
    splitNl (l ++ '\x0a' :: r) = l :: splitNl r := by
  induction l with
  | nil =>
    simp only [List.nil_append, splitNl]
    rw [if_pos trivial]
  | cons c cs ih =>
    have hc : ¬(c = '\x0a') := fun hc => h (by rw [hc]; exact List.mem_cons_self _ _)
    simp only [List.cons_append, splitNl, List.append_eq]
    rw [if_neg hc, ih (fun hm => h (List.mem_cons_of_mem c hm))]

theorem joinLines_cons (l : List Char) (ls : List (List Char)) (hls : ls ≠ []) :
    joinLines (l :: ls) = l ++ '\x0a' :: joinLines ls := by
  cases ls with
  | nil => exact absurd rfl hls
  | cons l2 ls2 => rfl

theorem splitNl_joinLines (l : List Char) (ls : List (List Char))
    (h : ∀ x ∈ l :: ls, '\x0a' ∉ x) :
    splitNl (joinLines (l :: ls)) = l :: ls := by
  induction ls generalizing l with
  | nil => exact splitNl_no_nl l (h l (List.mem_cons_self l []))
  | cons l2 ls2 ih =>
    rw [joinLines_cons l (l2 :: ls2) (by simp)]
    rw [splitNl_append _ _ (h l (List.mem_cons_self l _))]
    rw [ih l2 (fun x hx => h x (List.mem_cons_of_mem l hx))]

theorem getLast?_ne_nil (L : List (List Char)) (h : ∀ l ∈ L, l ≠ []) :
    L.getLast? ≠ some [] := by
  induction L with
  | nil => simp
  | cons a L ih =>
    cases L with
    | nil =>
      simp only [List.getLast?_singleton, ne_eq, Option.some.injEq]
      exact h a (List.mem_cons_self a [])
    | cons b L2 =>
      rw [List.getLast?_cons_cons]
      exact ih (fun l hl => h l (List.mem_cons_of_mem a hl))

theorem stripCrEnd_of_ne (l : List Char) (h : l.getLast? ≠ some '\x0d') :
    stripCrEnd l = l := by
  unfold stripCrEnd
  split
  · next heq => exact absurd heq h
  · rfl

theorem rustLines_joinLines (L : List (List Char))
    (h : ∀ l ∈ L, l ≠ [] ∧ '\x0a' ∉ l ∧ l.getLast? ≠ some '\x0d') :
    rustLines (joinLines L) = L := by
  cases L with
  | nil => rfl
  | cons l ls =>
    unfold rustLines
    rw [splitNl_joinLines l ls (fun x hx => (h x hx).2.1),
      if_neg (getLast?_ne_nil (l :: ls) (fun x hx => (h x hx).1))]
    have : ∀ x ∈ l :: ls, stripCrEnd x = x := fun x hx => stripCrEnd_of_ne x (h x hx).2.2
    rw [List.map_congr_left this]
    simp

theorem trimEnd_last_not_ws (a : List Char) (x : Char) (hx : rustWs x = false) :
    trimEnd (a ++ [x]) = a ++ [x] := by
  unfold trimEnd
  rw [show (a ++ [x]).reverse = x :: a.reverse by simp]
  rw [List.dropWhile_cons_of_neg (by simp [hx])]
  simp

/-! ### String-literal escaping round trip -/

theorem parseHexDigit_hexDigitChar (d : Nat) (h : d < 16) :
    parseHexDigit (hexDigitChar d) = some d := by
  by_cases h10 : d < 10
  · have hc : hexDigitChar d = digitChar d := by simp [hexDigitChar, h10]
    rw [hc]
    unfold parseHexDigit
    rw [if_pos (isDigit_digitChar d h10), digitChar_toNat d h10]
    exact congrArg some (by omega)
  · have hc : hexDigitChar d = Char.ofNat (87 + d) := by simp [hexDigitChar, h10]
    have ht : (Char.ofNat (87 + d)).toNat = 87 + d := toNat_ofNat_valid _ (by left; omega)
    rw [hc]
    unfold parseHexDigit
    rw [if_neg (by rw [isDigit_iff, ht]; omega),
      if_pos (show 'a' ≤ Char.ofNat (87 + d) ∧ Char.ofNat (87 + d) ≤ 'f' by
        rw [char_le_iff, char_le_iff, ht, show ('a').toNat = 97 from rfl,
          show ('f').toNat = 102 from rfl]
        omega), ht]
    exact congrArg some (by omega)

theorem hex4_zero_zero (x y : Nat) (hx : x < 16) (hy : y < 16) :
    hex4 '0' '0' (hexDigitChar x) (hexDigitChar y) = some (16 * x + y) := by
  unfold hex4
  rw [parseHexDigit_hexDigitChar x hx, parseHexDigit_hexDigitChar y hy,
    show parseHexDigit '0' = some 0 from rfl]
  exact congrArg some (by omega)

theorem parseStringBody_cons_raw (c : Char) (r : List Char) (h1 : ¬(c = '\x22'))
    (h2 : ¬(c = '\\')) (h3 : 0x20 ≤ c.toNat) :
    parseStringBody (c :: r) = (parseStringBody r).map (fun p => (c :: p.1, p.2)) := by
  rw [parseStringBody.eq_def]
  dsimp only []
  rw [if_neg h1, if_neg h2, if_pos h3]

theorem escapeChar_of_ge (c : Char) (h1 : ¬(c = '\x22')) (h2 : ¬(c = '\\'))
    (h3 : 0x20 ≤ c.toNat) : escapeChar c = [c] := by
  unfold escapeChar
  rw [if_neg h1, if_neg h2,
    if_neg (by rw [char_eq_iff, show ('\x08').toNat = 8 from rfl]; omega),
    if_neg (by rw [char_eq_iff, show ('\x09').toNat = 9 from rfl]; omega),
    if_neg (by rw [char_eq_iff, show ('\x0a').toNat = 10 from rfl]; omega),
    if_neg (by rw [char_eq_iff, show ('\x0c').toNat = 12 from rfl]; omega),
    if_neg (by rw [char_eq_iff, show ('\x0d').toNat = 13 from rfl]; omega),
    if_neg (by omega)]

theorem parseStringBody_escape (s rest : List Char) :
    parseStringBody (escapeString s ++ '\x22' :: rest) = some (s, rest) := by
  induction s with
  | nil =>
    rw [show escapeString [] = [] by simp [escapeString], List.nil_append,
      parseStringBody.eq_def]
    dsimp only []
    rw [if_pos rfl]
  | cons c cs ih =>
    rw [show escapeString (c :: cs) = escapeChar c ++ escapeString cs by simp [escapeString],
      List.append_assoc]
    by_cases h1 : c = '\x22'
    · subst h1
      rw [show (escapeChar '\x22' : List Char) = ['\\', '\x22'] from rfl]
      simp only [List.cons_append, List.nil_append]
      rw [show ∀ T, parseStringBody ('\\' :: '\x22' :: T) =
        (parseStringBody T).map (fun p => ('\x22' :: p.1, p.2)) from fun T => rfl, ih]
      rfl
    by_cases h2 : c = '\\'
    · subst h2
      rw [show (escapeChar '\\' : List Char) = ['\\', '\\'] from rfl]
      simp only [List.cons_append, List.nil_append]
      rw [show ∀ T, parseStringBody ('\\' :: '\\' :: T) =
        (parseStringBody T).map (fun p => ('\\' :: p.1, p.2)) from fun T => rfl, ih]
      rfl
    by_cases h3 : c = '\x08'
    · subst h3
      rw [show (escapeChar '\x08' : List Char) = ['\\', 'b'] from rfl]
      simp only [List.cons_append, List.nil_append]
      rw [show ∀ T, parseStringBody ('\\' :: 'b' :: T) =
        (parseStringBody T).map (fun p => ('\x08' :: p.1, p.2)) from fun T => rfl, ih]
      rfl
    by_cases h4 : c = '\x09'
    · subst h4
      rw [show (escapeChar '\x09' : List Char) = ['\\', 't'] from rfl]
      simp only [List.cons_append, List.nil_append]
      rw [show ∀ T, parseStringBody ('\\' :: 't' :: T) =
        (parseStringBody T).map (fun p => ('\x09' :: p.1, p.2)) from fun T => rfl, ih]
      rfl
    by_cases h5 : c = '\x0a'
    · subst h5
      rw [show (escapeChar '\x0a' : List Char) = ['\\', 'n'] from rfl]
      simp only [List.cons_append, List.nil_append]
      rw [show ∀ T, parseStringBody ('\\' :: 'n' :: T) =
        (parseStringBody T).map (fun p => ('\x0a' :: p.1, p.2)) from fun T => rfl, ih]
      rfl
    by_cases h6 : c = '\x0c'
    · subst h6
      rw [show (escapeChar '\x0c' : List Char) = ['\\', 'f'] from rfl]
      simp only [List.cons_append, List.nil_append]
      rw [show ∀ T, parseStringBody ('\\' :: 'f' :: T) =
        (parseStringBody T).map (fun p => ('\x0c' :: p.1, p.2)) from fun T => rfl, ih]
      rfl
    by_cases h7 : c = '\x0d'
    · subst h7
      rw [show (escapeChar '\x0d' : List Char) = ['\\', 'r'] from rfl]
      simp only [List.cons_append, List.nil_append]
      rw [show ∀ T, parseStringBody ('\\' :: 'r' :: T) =
        (parseStringBody T).map (fun p => ('\x0d' :: p.1, p.2)) from fun T => rfl, ih]
      rfl
    by_cases h8 : c.toNat < 0x20
    · have he : escapeChar c = ['\\', 'u', '0', '0', hexDigitChar (c.toNat / 16),
          hexDigitChar (c.toNat % 16)] := by
        unfold escapeChar
        rw [if_neg h1, if_neg h2, if_neg h3, if_neg h4, if_neg h5, if_neg h6, if_neg h7,
          if_pos h8]
      have hstep : ∀ (a b : Char) (n : Nat) (T : List Char), hex4 '0' '0' a b = some n →
          n < 0xD800 →
          parseStringBody ('\\' :: 'u' :: '0' :: '0' :: a :: b :: T) =
            (parseStringBody T).map (fun p => (Char.ofNat n :: p.1, p.2)) := by
        intro a b n T hh hn
        rw [show parseStringBody ('\\' :: 'u' :: '0' :: '0' :: a :: b :: T) =
          (match hex4 '0' '0' a b with
            | some n =>
              if n < 0xD800 then
                (parseStringBody T).map (fun p => (Char.ofNat n :: p.1, p.2))
              else none
            | none => none) from rfl]
        simp only [hh]
        rw [if_pos hn]
      rw [he]
      simp only [List.cons_append, List.nil_append]
      rw [hstep _ _ _ _ (hex4_zero_zero (c.toNat / 16) (c.toNat % 16) (by omega) (by omega))
        (by omega)]
      rw [show 16 * (c.toNat / 16) + c.toNat % 16 = c.toNat by omega, ofNat_toNat_char, ih]
      rfl
    · have he : escapeChar c = [c] := escapeChar_of_ge c h1 h2 (by omega)
      rw [he, List.singleton_append, parseStringBody_cons_raw c _ h1 h2 (by omega), ih]
      rfl

/-! ### Rendered JSON never contains control characters -/

theorem hexDigitChar_ge_space (d : Nat) (h : d < 16) : 0x20 ≤ (hexDigitChar d).toNat := by
  unfold hexDigitChar
  split
  · next h10 => rw [digitChar_toNat d h10]; omega
  · next h10 => rw [toNat_ofNat_valid _ (by left; omega)]; omega

theorem escapeChar_ge_space (c : Char) : ∀ x ∈ escapeChar c, 0x20 ≤ x.toNat := by
  intro x hx
  unfold escapeChar at hx
  split at hx
  · simp only [List.mem_cons, List.not_mem_nil, or_false] at hx
    rcases hx with h | h <;> subst h <;> decide
  · split at hx
    · simp only [List.mem_cons, List.not_mem_nil, or_false] at hx
      rcases hx with h | h <;> subst h <;> decide
    · split at hx
      · simp only [List.mem_cons, List.not_mem_nil, or_false] at hx
        rcases hx with h | h <;> subst h <;> decide
      · split at hx
        · simp only [List.mem_cons, List.not_mem_nil, or_false] at hx
          rcases hx with h | h <;> subst h <;> decide
        · split at hx
          · simp only [List.mem_cons, List.not_mem_nil, or_false] at hx
            rcases hx with h | h <;> subst h <;> decide
          · split at hx
            · simp only [List.mem_cons, List.not_mem_nil, or_false] at hx
              rcases hx with h | h <;> subst h <;> decide
            · split at hx
              · simp only [List.mem_cons, List.not_mem_nil, or_false] at hx
                rcases hx with h | h <;> subst h <;> decide
              · split at hx
                · simp only [List.mem_cons, List.not_mem_nil, or_false] at hx
                  rcases hx with h | h | h | h | h | h <;> subst h
                  · decide
                  · decide
                  · decide
                  · decide
                  · exact hexDigitChar_ge_space _ (by omega)
                  · exact hexDigitChar_ge_space _ (by omega)
                · simp only [List.mem_cons, List.not_mem_nil, or_false] at hx
                  subst hx
                  omega

theorem escapeString_ge_space (s : List Char) : ∀ x ∈ escapeString s, 0x20 ≤ x.toNat := by
  intro x hx
  unfold escapeString at hx
  obtain ⟨l, hl, hxl⟩ := List.mem_flatten.mp hx
  obtain ⟨c, _, rfl⟩ := List.mem_map.mp hl
  exact escapeChar_ge_space c x hxl

theorem renderStr_ge_space (s : List Char) : ∀ x ∈ renderStr s, 0x20 ≤ x.toNat := by
  intro x hx
  unfold renderStr at hx
  rcases List.mem_cons.mp hx with h | h
  · subst h; decide
  · rcases List.mem_append.mp h with h2 | h2
    · exact escapeString_ge_space s x h2
    · rw [List.mem_singleton] at h2; subst h2; decide

mutual

theorem render_ge_space (v : Json) : ∀ x ∈ v.render, 0x20 ≤ x.toNat := by
  intro x hx
  match v with
  | .null =>
    revert hx
    exact fun hx => (by decide : ∀ x ∈ ("null".data : List Char), 0x20 ≤ x.toNat) x hx
  | .bool true =>
    revert hx
    exact fun hx => (by decide : ∀ x ∈ ("true".data : List Char), 0x20 ≤ x.toNat) x hx
  | .bool false =>
    revert hx
    exact fun hx => (by decide : ∀ x ∈ ("false".data : List Char), 0x20 ≤ x.toNat) x hx
  | .num n =>
    have hd := natDigitChars_all_digit n x hx
    rw [isDigit_iff] at hd
    omega
  | .str s => exact renderStr_ge_space s x hx
  | .arr xs =>
    simp only [Json.render] at hx
    rcases List.mem_cons.mp hx with h | h
    · subst h; decide
    · rcases List.mem_append.mp h with h2 | h2
      · exact renderArr_ge_space xs x h2
      · rw [List.mem_singleton] at h2; subst h2; decide
  | .obj fs =>
    simp only [Json.render] at hx
    rcases List.mem_cons.mp hx with h | h
    · subst h; decide
    · rcases List.mem_append.mp h with h2 | h2
      · exact renderObj_ge_space fs x h2
      · rw [List.mem_singleton] at h2; subst h2; decide

theorem renderArr_ge_space (xs : List Json) : ∀ x ∈ Json.renderArr xs, 0x20 ≤ x.toNat := by
  intro x hx
  match xs with
  | [] => simp [Json.renderArr] at hx
  | v :: rest =>
    simp only [Json.renderArr] at hx
    rcases List.mem_append.mp hx with h | h
    · exact render_ge_space v x h
    · exact renderArrTail_ge_space rest x h

theorem renderArrTail_ge_space (xs : List Json) :
    ∀ x ∈ Json.renderArrTail xs, 0x20 ≤ x.toNat := by
  intro x hx
  match xs with
  | [] => simp [Json.renderArrTail] at hx
  | v :: rest =>
    simp only [Json.renderArrTail] at hx
    rcases List.mem_cons.mp hx with h | h
    · subst h; decide
    · rcases List.mem_append.mp h with h2 | h2
      · exact render_ge_space v x h2
      · exact renderArrTail_ge_space rest x h2

theorem renderObj_ge_space (fs : List (List Char × Json)) :
    ∀ x ∈ Json.renderObj fs, 0x20 ≤ x.toNat := by
  intro x hx
  match fs with
  | [] => simp [Json.renderObj] at hx
  | f :: rest =>
    simp only [Json.renderObj] at hx
    rcases List.mem_append.mp hx with h | h
    · rcases List.mem_append.mp h with h2 | h2
      · exact renderStr_ge_space f.1 x h2
      · rcases List.mem_cons.mp h2 with h3 | h3
        · subst h3; decide
        · exact render_ge_space f.2 x h3
    · exact renderObjTail_ge_space rest x h

theorem renderObjTail_ge_space (fs : List (List Char × Json)) :
    ∀ x ∈ Json.renderObjTail fs, 0x20 ≤ x.toNat := by
  intro x hx
  match fs with
  | [] => simp [Json.renderObjTail] at hx
  | f :: rest =>
    simp only [Json.renderObjTail] at hx
    rcases List.mem_cons.mp hx with h | h
    · subst h; decide
    · rcases List.mem_append.mp h with h2 | h2
      · rcases List.mem_append.mp h2 with h3 | h3
        · exact renderStr_ge_space f.1 x h3
        · rcases List.mem_cons.mp h3 with h4 | h4
          · subst h4; decide
          · exact render_ge_space f.2 x h4
      · exact renderObjTail_ge_space rest x h2

end

theorem mem_of_getLast? {α : Type} (l : List α) (a : α) (h : l.getLast? = some a) :
    a ∈ l := by
  induction l with
  | nil => simp at h
  | cons x xs ih =>
    cases xs with
    | nil =>
      simp only [List.getLast?_singleton, Option.some.injEq] at h
      subst h
      exact List.mem_cons_self _ _
    | cons y ys =>
      rw [List.getLast?_cons_cons] at h
      exact List.mem_cons_of_mem x (ih h)

theorem render_starts (v : Json) : ∃ c t, v.render = c :: t ∧ jsonStartChar c = true := by
  cases v with
  | null => exact ⟨'n', "ull".data, by decide, by decide⟩
  | bool b =>
    cases b with
    | true => exact ⟨'t', "rue".data, by decide, by decide⟩
    | false => exact ⟨'f', "alse".data, by decide, by decide⟩
  | num n =>
    have hne := natDigitChars_ne_nil n
    cases hn : natDigitChars n with
    | nil => exact absurd hn hne
    | cons c t =>
      refine ⟨c, t, ?_, ?_⟩
      · simp only [Json.render]; exact hn
      · have hd := natDigitChars_all_digit n c (by rw [hn]; exact List.mem_cons_self _ _)
        rw [isDigit_iff] at hd
        simp only [jsonStartChar, Bool.or_eq_true, Bool.and_eq_true, decide_eq_true_eq]
        omega
  | str s => exact ⟨'\x22', escapeString s ++ ['\x22'], by simp [Json.render, renderStr], by decide⟩
  | arr xs => exact ⟨'[', Json.renderArr xs ++ [']'], by simp [Json.render], by decide⟩
  | obj fs => exact ⟨'\x7b', Json.renderObj fs ++ ['\x7d'], by simp [Json.render], by decide⟩

theorem jsonStart_not_ws (c : Char) (h : jsonStartChar c = true) : jsonWs c = false := by
  simp only [jsonStartChar, Bool.or_eq_true, Bool.and_eq_true, decide_eq_true_eq] at h
  rw [Bool.eq_false_iff]
  intro hw
  simp only [jsonWs, Bool.or_eq_true, decide_eq_true_eq] at hw
  omega

theorem jsonStart_ne (c : Char) (h : jsonStartChar c = true) :
    ¬(c = ']') ∧ ¬(c = '\x7d') ∧ ¬(c = ',') ∧ ¬(c = ':') := by
  simp only [jsonStartChar, Bool.or_eq_true, Bool.and_eq_true, decide_eq_true_eq] at h
  refine ⟨?_, ?_, ?_, ?_⟩
  · rw [char_eq_iff, show (']').toNat = 93 from rfl]; omega
  · rw [char_eq_iff, show ('\x7d').toNat = 125 from rfl]; omega
  · rw [char_eq_iff, show (',').toNat = 44 from rfl]; omega
  · rw [char_eq_iff, show (':').toNat = 58 from rfl]; omega

theorem skipWs_not_ws (c : Char) (t : List Char) (h : jsonWs c = false) :
    skipWs (c :: t) = c :: t := by
  simp [skipWs, List.dropWhile_cons, h]

theorem skipWs_render (v : Json) (rest : List Char) :
    skipWs (v.render ++ rest) = v.render ++ rest := by
  obtain ⟨c, t, hct, hstart⟩ := render_starts v
  rw [hct, List.cons_append, skipWs_not_ws c _ (jsonStart_not_ws c hstart)]

theorem render_ne_nil (v : Json) : v.render ≠ [] := by
  obtain ⟨c, t, hct, _⟩ := render_starts v
  rw [hct]
  simp

theorem render_no_nl (v : Json) : '\x0a' ∉ v.render := fun h =>
  absurd (render_ge_space v _ h) (by decide)

theorem render_last_ne_cr (v : Json) : v.render.getLast? ≠ some '\x0d' := fun h =>
  absurd (render_ge_space v _ (mem_of_getLast? _ _ h)) (by decide)

/-! ### The parser inverts the renderer -/

mutual

theorem parseValue_render (v : Json) (fuel : Nat) (rest : List Char)
    (hf : v.jfuel ≤ fuel) (hrest : noLeadDigit rest = true) :
    parseValue fuel (v.render ++ rest) = some (v, rest) := by
  cases fuel with
  | zero => exact absurd hf (by cases v <;> (simp only [Json.jfuel]; omega))
  | succ fuel =>
    cases v with
    | null =>
      rw [show (Json.null).render = ['n', 'u', 'l', 'l'] by decide]
      simp only [List.cons_append, List.nil_append]
      rfl
    | bool b =>
      cases b with
      | true =>
        rw [show (Json.bool true).render = ['t', 'r', 'u', 'e'] by decide]
        simp only [List.cons_append, List.nil_append]
        rfl
      | false =>
        rw [show (Json.bool false).render = ['f', 'a', 'l', 's', 'e'] by decide]
        simp only [List.cons_append, List.nil_append]
        rfl
    | num n =>
      simp only [Json.render]
      cases hn : natDigitChars n with
      | nil => exact absurd hn (natDigitChars_ne_nil n)
      | cons c t =>
        have hd : c.isDigit = true :=
          natDigitChars_all_digit n c (by rw [hn]; exact List.mem_cons_self _ _)
        have hws : jsonWs c = false := by
          rw [Bool.eq_false_iff]
          intro hw
          rw [isDigit_iff] at hd
          simp only [jsonWs, Bool.or_eq_true, decide_eq_true_eq] at hw
          omega
        rw [List.cons_append]
        simp only [parseValue]
        rw [skipWs_not_ws c _ hws]
        split
        · next heq =>
          exfalso; rw [List.cons.injEq] at heq; rw [heq.1] at hd
          exact absurd hd (by decide)
        · next heq =>
          exfalso; rw [List.cons.injEq] at heq; rw [heq.1] at hd
          exact absurd hd (by decide)
        · next heq =>
          exfalso; rw [List.cons.injEq] at heq; rw [heq.1] at hd
          exact absurd hd (by decide)
        · next heq =>
          exfalso; rw [List.cons.injEq] at heq; rw [heq.1] at hd
          exact absurd hd (by decide)
        · next heq =>
          exfalso; rw [List.cons.injEq] at heq; rw [heq.1] at hd
          exact absurd hd (by decide)
        · next heq =>
          exfalso; rw [List.cons.injEq] at heq; rw [heq.1] at hd
          exact absurd hd (by decide)
        · rw [← List.cons_append, ← hn, parseNat_digits n rest hrest]
          rfl
    | str s =>
      rw [show (Json.str s).render = '\x22' :: (escapeString s ++ ['\x22']) from rfl,
        List.cons_append, List.append_assoc, List.singleton_append]
      rw [show parseValue (fuel + 1) ('\x22' :: (escapeString s ++ '\x22' :: rest)) =
        (parseStringBody (escapeString s ++ '\x22' :: rest)).map
          (fun p => (Json.str p.1, p.2)) from rfl]
      rw [parseStringBody_escape s rest]
      rfl
    | arr xs =>
      rw [show (Json.arr xs).render = '[' :: (Json.renderArr xs ++ [']']) from rfl,
        List.cons_append, List.append_assoc, List.singleton_append]
      rw [show parseValue (fuel + 1) ('[' :: (Json.renderArr xs ++ ']' :: rest)) =
        parseElems fuel (Json.renderArr xs ++ ']' :: rest) from rfl]
      exact parseElems_render xs fuel rest (by simp only [Json.jfuel] at hf; omega)
    | obj fs =>
      rw [show (Json.obj fs).render = '\x7b' :: (Json.renderObj fs ++ ['\x7d']) from rfl,
        List.cons_append, List.append_assoc, List.singleton_append]
      rw [show parseValue (fuel + 1) ('\x7b' :: (Json.renderObj fs ++ '\x7d' :: rest)) =
        parseFields fuel (Json.renderObj fs ++ '\x7d' :: rest) from rfl]
      exact parseFields_render fs fuel rest (by simp only [Json.jfuel] at hf; omega)

theorem parseElems_render (xs : List Json) (fuel : Nat) (rest : List Char)
    (hf : Json.jfuelElems xs ≤ fuel) :
    parseElems fuel (Json.renderArr xs ++ ']' :: rest) = some (Json.arr xs, rest) := by
  cases fuel with
  | zero => exact absurd hf (by cases xs <;> (simp only [Json.jfuelElems]; omega))
  | succ fuel =>
    cases xs with
    | nil =>
      rw [show Json.renderArr [] = [] from rfl, List.nil_append]
      rfl
    | cons x xs =>
      have hT : noLeadDigit (Json.renderArrTail xs ++ ']' :: rest) = true := by
        cases xs <;> rfl
      rw [show Json.renderArr (x :: xs) = x.render ++ Json.renderArrTail xs from rfl,
        List.append_assoc]
      obtain ⟨c, t, hct, hstart⟩ := render_starts x
      simp only [parseElems]
      rw [show skipWs (x.render ++ (Json.renderArrTail xs ++ ']' :: rest)) =
        x.render ++ (Json.renderArrTail xs ++ ']' :: rest) from skipWs_render x _]
      rw [hct, List.cons_append]
      split
      · next heq =>
        exfalso; rw [List.cons.injEq] at heq
        exact absurd heq.1 (jsonStart_ne c hstart).1
      · rw [← List.cons_append, ← hct,
          parseValue_render x fuel _ (by simp only [Json.jfuelElems] at hf; omega) hT,
          Option.some_bind,
          parseElemsRest_render xs fuel rest (by simp only [Json.jfuelElems] at hf; omega)]
        rfl

theorem parseElemsRest_render (xs : List Json) (fuel : Nat) (rest : List Char)
    (hf : Json.jfuelElems xs ≤ fuel) :
    parseElemsRest fuel (Json.renderArrTail xs ++ ']' :: rest) = some (xs, rest) := by
  cases fuel with
  | zero => exact absurd hf (by cases xs <;> (simp only [Json.jfuelElems]; omega))
  | succ fuel =>
    cases xs with
    | nil =>
      rw [show Json.renderArrTail [] = [] from rfl, List.nil_append]
      rfl
    | cons x xs =>
      have hT : noLeadDigit (Json.renderArrTail xs ++ ']' :: rest) = true := by
        cases xs <;> rfl
      rw [show Json.renderArrTail (x :: xs) = (',' :: x.render) ++ Json.renderArrTail xs
          from rfl, List.append_assoc, List.cons_append]
      rw [show parseElemsRest (fuel + 1)
          (',' :: (x.render ++ (Json.renderArrTail xs ++ ']' :: rest))) =
        (parseValue fuel (x.render ++ (Json.renderArrTail xs ++ ']' :: rest))).bind
          (fun p => (parseElemsRest fuel p.2).map fun q => (p.1 :: q.1, q.2)) from rfl]
      rw [parseValue_render x fuel _ (by simp only [Json.jfuelElems] at hf; omega) hT,
        Option.some_bind,
        parseElemsRest_render xs fuel rest (by simp only [Json.jfuelElems] at hf; omega)]
      rfl

theorem parseFields_render (fs : List (List Char × Json)) (fuel : Nat) (rest : List Char)
    (hf : Json.jfuelFields fs ≤ fuel) :
    parseFields fuel (Json.renderObj fs ++ '\x7d' :: rest) = some (Json.obj fs, rest) := by
  cases fuel with
  | zero => exact absurd hf (by cases fs <;> (simp only [Json.jfuelFields]; omega))
  | succ fuel =>
    cases fs with
    | nil =>
      rw [show Json.renderObj [] = [] from rfl, List.nil_append]
      rfl
    | cons f fs =>
      have hT : noLeadDigit (Json.renderObjTail fs ++ '\x7d' :: rest) = true := by
        cases fs <;> rfl
      cases fuel with
      | zero => exact absurd hf (by simp only [Json.jfuelFields]; omega)
      | succ f2 =>
        rw [show Json.renderObj (f :: fs) =
            ('\x22' :: escapeString f.1) ++ ['\x22'] ++ (':' :: f.2.render) ++
              Json.renderObjTail fs from rfl]
        simp only [List.append_assoc, List.cons_append, List.singleton_append,
          List.nil_append]
        rw [show parseFields (f2 + 1 + 1)
            ('\x22' :: (escapeString f.1 ++ '\x22' :: ':' :: (f.2.render ++
              (Json.renderObjTail fs ++ '\x7d' :: rest)))) =
          (parseField (f2 + 1) ('\x22' :: (escapeString f.1 ++ '\x22' :: ':' ::
              (f.2.render ++ (Json.renderObjTail fs ++ '\x7d' :: rest))))).bind
            (fun p => (parseFieldsRest (f2 + 1) p.2).map
              fun q => (Json.obj (p.1 :: q.1), q.2)) from rfl]
        rw [show parseField (f2 + 1) ('\x22' :: (escapeString f.1 ++ '\x22' :: ':' ::
            (f.2.render ++ (Json.renderObjTail fs ++ '\x7d' :: rest)))) =
          (parseStringBody (escapeString f.1 ++ '\x22' :: ':' ::
              (f.2.render ++ (Json.renderObjTail fs ++ '\x7d' :: rest)))).bind
            (fun k =>
              match skipWs k.2 with
              | ':' :: rest2 => (parseValue f2 rest2).map fun v => ((k.1, v.1), v.2)
              | _ => none) from rfl]
        rw [parseStringBody_escape f.1 (':' :: (f.2.render ++
          (Json.renderObjTail fs ++ '\x7d' :: rest))), Option.some_bind]
        rw [show skipWs (':' :: (f.2.render ++ (Json.renderObjTail fs ++ '\x7d' :: rest))) =
          ':' :: (f.2.render ++ (Json.renderObjTail fs ++ '\x7d' :: rest))
          from skipWs_not_ws _ _ (by decide)]
        rw [show (match ':' :: (f.2.render ++ (Json.renderObjTail fs ++ '\x7d' :: rest)) with
            | ':' :: rest2 => Option.map (fun v => ((f.1, v.1), v.2)) (parseValue f2 rest2)
            | _ => none) =
          Option.map (fun v => ((f.1, v.1), v.2))
            (parseValue f2 (f.2.render ++ (Json.renderObjTail fs ++ '\x7d' :: rest)))
          from rfl]
        rw [parseValue_render f.2 f2 _ (by simp only [Json.jfuelFields] at hf; omega) hT]
        rw [Option.map_some', Option.some_bind]
        rw [parseFieldsRest_render fs (f2 + 1) rest
          (by simp only [Json.jfuelFields] at hf; omega)]
        rfl

theorem parseFieldsRest_render (fs : List (List Char × Json)) (fuel : Nat)
    (rest : List Char) (hf : Json.jfuelFields fs ≤ fuel) :
    parseFieldsRest fuel (Json.renderObjTail fs ++ '\x7d' :: rest) = some (fs, rest) := by
  cases fuel with
  | zero => exact absurd hf (by cases fs <;> (simp only [Json.jfuelFields]; omega))
  | succ fuel =>
    cases fs with
    | nil =>
      rw [show Json.renderObjTail [] = [] from rfl, List.nil_append]
      rfl
    | cons f fs =>
      have hT : noLeadDigit (Json.renderObjTail fs ++ '\x7d' :: rest) = true := by
        cases fs <;> rfl
      cases fuel with
      | zero => exact absurd hf (by simp only [Json.jfuelFields]; omega)
      | succ f2 =>
        rw [show Json.renderObjTail (f :: fs) =
            (',' :: '\x22' :: escapeString f.1) ++ ['\x22'] ++ (':' :: f.2.render) ++
              Json.renderObjTail fs from rfl]
        simp only [List.append_assoc, List.cons_append, List.singleton_append,
          List.nil_append]
        rw [show parseFieldsRest (f2 + 1 + 1)
            (',' :: '\x22' :: (escapeString f.1 ++ '\x22' :: ':' :: (f.2.render ++
              (Json.renderObjTail fs ++ '\x7d' :: rest)))) =
          (parseField (f2 + 1) ('\x22' :: (escapeString f.1 ++ '\x22' :: ':' ::
              (f.2.render ++ (Json.renderObjTail fs ++ '\x7d' :: rest))))).bind
            (fun p => (parseFieldsRest (f2 + 1) p.2).map
              fun q => (p.1 :: q.1, q.2)) from rfl]
        rw [show parseField (f2 + 1) ('\x22' :: (escapeString f.1 ++ '\x22' :: ':' ::
            (f.2.render ++ (Json.renderObjTail fs ++ '\x7d' :: rest)))) =
          (parseStringBody (escapeString f.1 ++ '\x22' :: ':' ::
              (f.2.render ++ (Json.renderObjTail fs ++ '\x7d' :: rest)))).bind
            (fun k =>
              match skipWs k.2 with
              | ':' :: rest2 => (parseValue f2 rest2).map fun v => ((k.1, v.1), v.2)
              | _ => none) from rfl]
        rw [parseStringBody_escape f.1 (':' :: (f.2.render ++
          (Json.renderObjTail fs ++ '\x7d' :: rest))), Option.some_bind]
        rw [show skipWs (':' :: (f.2.render ++ (Json.renderObjTail fs ++ '\x7d' :: rest))) =
          ':' :: (f.2.render ++ (Json.renderObjTail fs ++ '\x7d' :: rest))
          from skipWs_not_ws _ _ (by decide)]
        rw [show (match ':' :: (f.2.render ++ (Json.renderObjTail fs ++ '\x7d' :: rest)) with
            | ':' :: rest2 => Option.map (fun v => ((f.1, v.1), v.2)) (parseValue f2 rest2)
            | _ => none) =
          Option.map (fun v => ((f.1, v.1), v.2))
            (parseValue f2 (f.2.render ++ (Json.renderObjTail fs ++ '\x7d' :: rest)))
          from rfl]
        rw [parseValue_render f.2 f2 _ (by simp only [Json.jfuelFields] at hf; omega) hT]
        rw [Option.map_some', Option.some_bind]
        rw [parseFieldsRest_render fs (f2 + 1) rest
          (by simp only [Json.jfuelFields] at hf; omega)]
        rfl

end

/-! ### The default fuel suffices for any rendered value -/

mutual

theorem jfuel_le (v : Json) : v.jfuel ≤ 2 * v.render.length + 1 := by
  cases v with
  | null => simp only [Json.jfuel]; omega
  | bool b => simp only [Json.jfuel]; omega
  | num n => simp only [Json.jfuel]; omega
  | str s => simp only [Json.jfuel]; omega
  | arr xs =>
    cases xs with
    | nil =>
      simp only [Json.jfuel, Json.jfuelElems, Json.render, Json.renderArr,
        List.length_append, List.length_cons, List.length_nil]
      omega
    | cons x xs =>
      have h1 := jfuel_le x
      have h2 := jfuelElems_le_tail xs
      simp only [Json.jfuel, Json.jfuelElems, Json.render, Json.renderArr,
        List.length_cons, List.length_append]
      omega
  | obj fs =>
    cases fs with
    | nil =>
      simp only [Json.jfuel, Json.jfuelFields, Json.render, Json.renderObj,
        List.length_append, List.length_cons, List.length_nil]
      omega
    | cons f fs =>
      have h1 := jfuel_le f.2
      have h2 := jfuelFields_le_tail fs
      simp only [Json.jfuel, Json.jfuelFields, Json.render, Json.renderObj,
        List.length_cons, List.length_append]
      omega

theorem jfuelElems_le_tail (xs : List Json) :
    Json.jfuelElems xs ≤ 2 * (Json.renderArrTail xs).length + 1 := by
  cases xs with
  | nil => simp only [Json.jfuelElems]; omega
  | cons x xs =>
    have h1 := jfuel_le x
    have h2 := jfuelElems_le_tail xs
    simp only [Json.jfuelElems, Json.renderArrTail, List.length_cons, List.length_append]
    omega

theorem jfuelFields_le_tail (fs : List (List Char × Json)) :
    Json.jfuelFields fs ≤ 2 * (Json.renderObjTail fs).length + 1 := by
  cases fs with
  | nil => simp only [Json.jfuelFields]; omega
  | cons f fs =>
    have h1 := jfuel_le f.2
    have h2 := jfuelFields_le_tail fs
    simp only [Json.jfuelFields, Json.renderObjTail, List.length_cons, List.length_append]
    omega

end

theorem jsonParse_render (v : Json) : jsonParse v.render = some v := by
  unfold jsonParse
  have h1 : parseValue (2 * v.render.length + 2) (v.render ++ []) = some (v, []) :=
    parseValue_render v _ [] (by have := jfuel_le v; omega) rfl
  rw [List.append_nil] at h1
  rw [h1]
  rfl

/-! ### The serde codecs invert serialization -/

theorem decodeStringElems_map (l : List (List Char)) :
    decodeStringElems (l.map Json.str) = .ok l := by
  induction l with
  | nil => rfl
  | cons s l ih => simp only [List.map_cons, decodeStringElems, decodeString, ih]

theorem decodeStringList_map (l : List (List Char)) :
    decodeStringList (.arr (l.map Json.str)) = .ok l := by
  simp only [decodeStringList]
  exact decodeStringElems_map l

theorem decodeOptString_optStrJson (o : Option (List Char)) :
    decodeOptString (optStrJson o) = .ok o := by
  cases o <;> rfl

theorem decodeKind_kindStr (k : DependencyKind) : decodeKind (.str (kindStr k)) = .ok k := by
  cases k <;> rfl

theorem depFromJson_toJson (d : IndexDependency) :
    IndexDependency.fromJson d.toJson = .ok d := by
  obtain ⟨name, req, features, optional, default_features, target, kind, registry,
    package⟩ := d
  simp only [IndexDependency.toJson, IndexDependency.fromJson]
  simp +decide [reqField, optField, Json.getField?, decodeString, decodeBool,
    decodeStringList_map, decodeOptString_optStrJson, decodeKind_kindStr, Except.bind,
    Except.map]

theorem decodeDepElems_map (l : List IndexDependency) :
    decodeDepElems (l.map IndexDependency.toJson) = .ok l := by
  induction l with
  | nil => rfl
  | cons d l ih => simp only [List.map_cons, decodeDepElems, depFromJson_toJson, ih]

theorem decodeDeps_map (l : List IndexDependency) :
    decodeDeps (.arr (l.map IndexDependency.toJson)) = .ok l := by
  simp only [decodeDeps]
  exact decodeDepElems_map l

/-! ### `MinRustVersion`: `from_str` inverts `Display` -/

theorem parseOpPrefix_digit (c : Char) (r : List Char) (h : c.isDigit = true) :
    parseOpPrefix (c :: r) = none := by
  rw [isDigit_iff] at h
  rw [parseOpPrefix.eq_def]
  dsimp only []
  rw [if_neg (by rw [char_eq_iff, show ('=').toNat = 61 from rfl]; omega),
    if_neg (by rw [char_eq_iff, show ('>').toNat = 62 from rfl]; omega),
    if_neg (by rw [char_eq_iff, show ('<').toNat = 60 from rfl]; omega),
    if_neg (by rw [char_eq_iff, show ('~').toNat = 126 from rfl]; omega),
    if_neg (by rw [char_eq_iff, show ('^').toNat = 94 from rfl]; omega)]

theorem parsePreAux_all (pre : List Char) (hne : pre ≠ [])
    (hall : pre.all semverIdentChar = true) : parsePreAux pre = some (pre, []) := by
  have h := takeWhile_append_all semverIdentChar pre []
    (fun a ha => by rw [List.all_eq_true] at hall; exact hall a ha)
    (fun c hc => by simp at hc)
  rw [List.append_nil] at h
  unfold parsePreAux
  rw [h.1, h.2]
  cases pre with
  | nil => exact absurd rfl hne
  | cons c t => rfl

theorem mrv_display_mem (m : MinRustVersion) :
    ∀ c ∈ m.display, c.isDigit = true ∨ c = '.' ∨ c = '-' ∨ c ∈ m.pre := by
  obtain ⟨M, mi, p, pre⟩ := m
  cases mi with
  | none =>
    intro c hc
    simp only [MinRustVersion.display, List.append_nil] at hc
    exact Or.inl (natDigitChars_all_digit M c hc)
  | some minor =>
    cases p with
    | none =>
      intro c hc
      simp only [MinRustVersion.display, List.append_nil] at hc
      rcases List.mem_append.mp hc with h | h
      · exact Or.inl (natDigitChars_all_digit M c h)
      · rcases List.mem_cons.mp h with h2 | h2
        · exact Or.inr (Or.inl h2)
        · exact Or.inl (natDigitChars_all_digit minor c h2)
    | some patch =>
      by_cases hp0 : pre = []
      · subst hp0
        intro c hc
        simp only [MinRustVersion.display, eq_self_iff_true, ite_true, List.append_eq,
          List.append_nil] at hc
        rcases List.mem_append.mp hc with h | h
        · exact Or.inl (natDigitChars_all_digit M c h)
        · rcases List.mem_cons.mp h with h2 | h2
          · exact Or.inr (Or.inl h2)
          · rcases List.mem_append.mp h2 with h3 | h3
            · exact Or.inl (natDigitChars_all_digit minor c h3)
            · rcases List.mem_cons.mp h3 with h4 | h4
              · exact Or.inr (Or.inl h4)
              · exact Or.inl (natDigitChars_all_digit patch c h4)
      · intro c hc
        simp only [MinRustVersion.display] at hc
        rw [if_neg hp0] at hc
        rcases List.mem_append.mp hc with h | h
        · exact Or.inl (natDigitChars_all_digit M c h)
        · rcases List.mem_cons.mp h with h2 | h2
          · exact Or.inr (Or.inl h2)
          · rcases List.mem_append.mp h2 with h3 | h3
            · exact Or.inl (natDigitChars_all_digit minor c h3)
            · rcases List.mem_cons.mp h3 with h4 | h4
              · exact Or.inr (Or.inl h4)
              · rcases List.mem_append.mp h4 with h5 | h5
                · exact Or.inl (natDigitChars_all_digit patch c h5)
                · rcases List.mem_cons.mp h5 with h6 | h6
                  · exact Or.inr (Or.inr (Or.inl h6))
                  · exact Or.inr (Or.inr (Or.inr h6))

theorem mrv_display_no_caret (m : MinRustVersion)
    (hpre : m.pre.all semverIdentChar = true) : m.display.contains '^' = false := by
  rw [Bool.eq_false_iff]
  intro hc
  have hmem : '^' ∈ m.display := by
    rw [List.contains_iff_exists_mem_beq] at hc
    obtain ⟨a, ha, hbeq⟩ := hc
    rw [show ('^' == a) = decide ('^' = a) from rfl, decide_eq_true_eq] at hbeq
    rwa [hbeq]
  rcases mrv_display_mem m '^' hmem with h | h | h | h
  · exact absurd h (by decide)
  · exact absurd h (by decide)
  · exact absurd h (by decide)
  · have h2 : semverIdentChar '^' = true := by
      rw [List.all_eq_true] at hpre
      exact hpre '^' h
    exact absurd h2 (by decide)

theorem mrv_display_head (m : MinRustVersion) :
    ∃ c t, m.display = c :: t ∧ c.isDigit = true := by
  obtain ⟨M, mi, p, pre⟩ := m
  cases hn : natDigitChars M with
  | nil => exact absurd hn (natDigitChars_ne_nil M)
  | cons c t =>
    obtain ⟨tail, htail⟩ : ∃ tail,
        MinRustVersion.display ⟨M, mi, p, pre⟩ = natDigitChars M ++ tail := ⟨_, rfl⟩
    refine ⟨c, t ++ tail, ?_,
      natDigitChars_all_digit M c (by rw [hn]; exact List.mem_cons_self _ _)⟩
    rw [htail, hn, List.cons_append]

theorem comparatorNums_display (m : MinRustVersion) (h : m.WF) :
    comparatorNums m.display = some (m.major, m.minor, m.patch, m.pre) := by
  obtain ⟨M, mi, p, pre⟩ := m
  obtain ⟨hmp, hpp, hpre⟩ := h
  cases mi with
  | none =>
    have hp : p = none := hmp rfl
    subst hp
    have hpre0 : pre = [] := hpp rfl
    subst hpre0
    simp only [MinRustVersion.display, List.append_nil]
    unfold comparatorNums
    have hn : parseNat (natDigitChars M) = some (M, []) := by
      have h2 := parseNat_digits M [] rfl
      rwa [List.append_nil] at h2
    rw [hn, Option.some_bind]
    rfl
  | some minor =>
    cases p with
    | none =>
      have hpre0 : pre = [] := hpp rfl
      subst hpre0
      simp only [MinRustVersion.display, List.append_nil]
      unfold comparatorNums
      rw [parseNat_digits M ('.' :: natDigitChars minor) rfl, Option.some_bind]
      simp only [comparatorTail2]
      have hn : parseNat (natDigitChars minor) = some (minor, []) := by
        have h2 := parseNat_digits minor [] rfl
        rwa [List.append_nil] at h2
      rw [hn, Option.some_bind]
      rfl
    | some patch =>
      by_cases hp0 : pre = []
      · subst hp0
        simp only [MinRustVersion.display, eq_self_iff_true, ite_true, List.append_eq,
          List.append_nil]
        unfold comparatorNums
        rw [parseNat_digits M (('.' :: natDigitChars minor) ++ ('.' :: natDigitChars patch))
          (by rfl), Option.some_bind]
        simp only [List.cons_append, comparatorTail2]
        rw [parseNat_digits minor ('.' :: natDigitChars patch) rfl, Option.some_bind]
        simp only [comparatorTail3]
        have hn : parseNat (natDigitChars patch) = some (patch, []) := by
          have h2 := parseNat_digits patch [] rfl
          rwa [List.append_nil] at h2
        rw [hn, Option.some_bind]
        rfl
      · simp only [MinRustVersion.display]
        rw [if_neg hp0]
        unfold comparatorNums
        rw [parseNat_digits M
          (('.' :: natDigitChars minor) ++ (('.' :: natDigitChars patch) ++ ('-' :: pre)))
          (by rfl), Option.some_bind]
        simp only [List.cons_append, comparatorTail2]
        rw [parseNat_digits minor ('.' :: (natDigitChars patch ++ '-' :: pre)) rfl,
          Option.some_bind]
        simp only [comparatorTail3]
        rw [parseNat_digits patch ('-' :: pre) rfl, Option.some_bind]
        simp only [comparatorTail4]
        rw [parsePreAux_all pre hp0 hpre, Option.some_bind]
        rw [if_pos rfl]
        rfl

theorem mrv_from_str_display (m : MinRustVersion) (h : m.WF) :
    MinRustVersion.from_str m.display = .ok m := by
  have hcar := mrv_display_no_caret m h.2.2
  unfold MinRustVersion.from_str
  rw [if_neg (by rw [hcar]; simp)]
  have hcp : comparatorParse m.display =
      some ⟨SemverOp.caret, m.major, m.minor, m.patch, m.pre⟩ := by
    obtain ⟨c, t, hct, hd⟩ := mrv_display_head m
    unfold comparatorParse
    rw [hct, parseOpPrefix_digit c t hd, ← hct]
    rw [comparatorNums_display m h]
    rfl
  rw [hcp]
  rfl

/-! ### The features map: `BTreeMap` rebuilt by ordered insertion -/

theorem lexLt_self (a : List Char) : lexLt a a = false := by
  induction a with
  | nil => rfl
  | cons x xs ih =>
    simp only [lexLt]
    rw [if_neg (by omega), if_neg (by omega)]
    exact ih

theorem lexLt_asymm (a b : List Char) (h : lexLt a b = true) : lexLt b a = false := by
  induction a generalizing b with
  | nil => cases b <;> rfl
  | cons x xs ih =>
    cases b with
    | nil => exact absurd h (by simp [lexLt])
    | cons y ys =>
      simp only [lexLt] at h ⊢
      by_cases h1 : x.toNat < y.toNat
      · rw [if_neg (by omega), if_pos (by omega)]
      · by_cases h2 : y.toNat < x.toNat
        · rw [if_neg h1, if_pos h2] at h
          exact absurd h (by simp)
        · rw [if_neg h1, if_neg h2] at h
          rw [if_neg h2, if_neg h1]
          exact ih ys h

theorem insertFeature_append (k : FeatureName) (v : List (List Char))
    (acc : List (FeatureName × List (List Char)))
    (h : ∀ kv ∈ acc, lexLt kv.1.str k.str = true) :
    insertFeature k v acc = acc ++ [(k, v)] := by
  induction acc with
  | nil => rfl
  | cons kv rest ih =>
    obtain ⟨k', v'⟩ := kv
    have hlt : lexLt k'.str k.str = true := h (k', v') (List.mem_cons_self _ _)
    simp only [insertFeature]
    rw [if_neg (by rw [lexLt_asymm _ _ hlt]; simp),
      if_neg (fun heq => by rw [heq] at hlt; rw [lexLt_self] at hlt; exact absurd hlt (by simp)),
      ih (fun x hx => h x (List.mem_cons_of_mem _ hx))]
    rfl

theorem decodeFeatureFields_sorted (l acc : List (FeatureName × List (List Char)))
    (hpw : List.Pairwise (fun a b => lexLt a.1.str b.1.str = true) (acc ++ l))
    (hval : ∀ kv ∈ l, FeatureName.new kv.1.str = .ok kv.1) :
    decodeFeatureFields acc (l.map fun kv => (kv.1.str, Json.arr (kv.2.map Json.str))) =
      .ok (acc ++ l) := by
  induction l generalizing acc with
  | nil => simp only [List.map_nil, decodeFeatureFields, List.append_nil]
  | cons kv l ih =>
    simp only [List.map_cons, decodeFeatureFields, decodeFeatureName,
      hval kv (List.mem_cons_self _ _), decodeStringList_map]
    have hacc : ∀ x ∈ acc, lexLt x.1.str kv.1.str = true := by
      have h3 := (List.pairwise_append.mp hpw).2.2
      exact fun x hx => h3 x hx kv (List.mem_cons_self _ _)
    rw [insertFeature_append kv.1 kv.2 acc hacc]
    have hpw' : List.Pairwise (fun a b => lexLt a.1.str b.1.str = true) ((acc ++ [kv]) ++ l) := by
      rw [List.append_assoc, List.singleton_append]
      exact hpw
    rw [ih (acc ++ [kv]) hpw' (fun x hx => hval x (List.mem_cons_of_mem _ hx))]
    rw [List.append_assoc, List.singleton_append]

theorem decodeFeatures_sorted (l : List (FeatureName × List (List Char)))
    (hpw : List.Pairwise (fun a b => lexLt a.1.str b.1.str = true) l)
    (hval : ∀ kv ∈ l, FeatureName.new kv.1.str = .ok kv.1) :
    decodeFeatures (.obj (l.map fun kv => (kv.1.str, Json.arr (kv.2.map Json.str)))) =
      .ok l := by
  simp only [decodeFeatures]
  have h2 := decodeFeatureFields_sorted l [] (by rwa [List.nil_append]) hval
  rwa [List.nil_append] at h2

/-! ### The entry and file codecs -/

theorem entryFromJson_toJson (forbiddenNames : List (List Char)) (e : IndexEntry)
    (h : e.WF forbiddenNames) : IndexEntry.fromJson forbiddenNames e.toJson = .ok e := by
  obtain ⟨hname, hvers, hmrv, hpw, hval⟩ := h
  obtain ⟨name, vers, deps, cksum, features, yanked, links, rust_version⟩ := e
  simp only [IndexEntry.toJson, IndexEntry.fromJson]
  cases rust_version with
  | none =>
    simp +decide [reqField, optField, Json.getField?, decodeCrateName, hname,
      decodeVersion, versionParse_display vers hvers, decodeDeps_map, decodeString,
      decodeFeatures_sorted features hpw hval, decodeBool, decodeOptString_optStrJson,
      decodeRustVersion, Except.bind, Except.map]
  | some m =>
    simp +decide [reqField, optField, Json.getField?, decodeCrateName, hname,
      decodeVersion, versionParse_display vers hvers, decodeDeps_map, decodeString,
      decodeFeatures_sorted features hpw hval, decodeBool, decodeOptString_optStrJson,
      decodeRustVersion, mrv_from_str_display m hmrv, Except.bind, Except.map]

theorem trimEnd_render_obj (fs : List (List Char × Json)) :
    trimEnd (Json.obj fs).render = (Json.obj fs).render := by
  rw [show (Json.obj fs).render = ('\x7b' :: Json.renderObj fs) ++ ['\x7d'] from rfl]
  exact trimEnd_last_not_ws _ '\x7d' (by decide)

theorem parseEntryLine_render (forbiddenNames : List (List Char)) (e : IndexEntry)
    (h : e.WF forbiddenNames) :
    parseEntryLine forbiddenNames (IndexEntry.toJson e).render = .ok e := by
  unfold parseEntryLine
  obtain ⟨fs, hfs⟩ : ∃ fs, IndexEntry.toJson e = .obj fs := ⟨_, rfl⟩
  rw [hfs, trimEnd_render_obj fs, jsonParse_render (Json.obj fs)]
  show IndexEntry.fromJson forbiddenNames (Json.obj fs) = .ok e
  rw [← hfs]
  exact entryFromJson_toJson forbiddenNames e h

theorem collectEntries_render (forbiddenNames : List (List Char)) (l : List IndexEntry)
    (h : ∀ e ∈ l, e.WF forbiddenNames) :
    collectEntries forbiddenNames (l.map fun e => (IndexEntry.toJson e).render) = .ok l := by
  induction l with
  | nil => rfl
  | cons e l ih =>
    simp only [List.map_cons, collectEntries,
      parseEntryLine_render forbiddenNames e (h e (List.mem_cons_self _ _)),
      ih (fun x hx => h x (List.mem_cons_of_mem _ hx))]

theorem from_bytes_to_bytes (forbiddenNames : List (List Char)) (f : IndexFile)
    (h : f.WF forbiddenNames) :
    IndexFile.from_bytes forbiddenNames f.to_bytes = .ok f := by
  obtain ⟨entries⟩ := f
  have hlines : rustLines (joinLines (entries.map fun e => (IndexEntry.toJson e).render)) =
      entries.map fun e => (IndexEntry.toJson e).render := by
    apply rustLines_joinLines
    intro l hl
    obtain ⟨e, _, rfl⟩ := List.mem_map.mp hl
    exact ⟨render_ne_nil _, render_no_nl _, render_last_ne_cr _⟩
  unfold IndexFile.to_bytes IndexFile.from_bytes
  rw [utf8Decode_encode]
  simp only [hlines, collectEntries_render forbiddenNames entries (fun e he => h e he)]

/-! ### The claims about the index file format and the index endpoint -/

/-- **C4.** For every `IndexFile` `f` whose entries carry the invariants their
constructors establish (validated crate name, semver version segments, a strictly
sorted feature map with valid feature names, a `rust_version` of `from_str`'s
shape — which is every value the program builds), deserializing its serialization
succeeds and returns the same entry sequence:
`IndexFile::from_bytes (IndexFile::to_bytes f) = Ok f`; and `to_bytes` of an
index file with no entries is the empty byte string. -/
theorem index_file_round_trip (forbiddenNames : List (List Char)) (f : IndexFile)
    (h : f.WF forbiddenNames) :
    IndexFile.from_bytes forbiddenNames f.to_bytes = .ok f ∧
      IndexFile.to_bytes ⟨[]⟩ = [] :=
  ⟨from_bytes_to_bytes forbiddenNames f h, rfl⟩

theorem index_file_round_trip_witness :
    IndexFile.WF [] ⟨[rtEntry]⟩ ∧
      (IndexFile.from_bytes [] (IndexFile.to_bytes ⟨[rtEntry]⟩) = .ok ⟨[rtEntry]⟩ ∧
        IndexFile.to_bytes ⟨[]⟩ = []) :=
  ⟨by decide, index_file_round_trip [] ⟨[rtEntry]⟩ (by decide)⟩

/-- **C6 (counterexample).** The byte string consisting of a single newline is one
empty line for `str::lines`.  `IndexFile::from_bytes` does not skip it: the line is
JSON-parsed like any other, fails, and the whole parse returns the `Json` error —
not the empty entry sequence that "empty lines are skipped, not parsed" would
give. -/
theorem from_bytes_empty_line_errors :
    IndexFile.from_bytes [] [10] = .error IndexFileError.Json ∧
      ¬(IndexFile.from_bytes [] [10] = .ok ⟨[]⟩) := by
  exact ⟨by decide, by decide⟩

/-- **C6 (amended).** `IndexFile::from_bytes` interprets the input as UTF-8 and
errors on invalid encoding; splits on newlines, dropping only the empty piece after
a final terminating newline; trims each line's trailing whitespace (in particular a
CRLF's `\r`); and parses **every** remaining line — empty lines included, which
fail with the `Json` error rather than being skipped — as one `IndexEntry`; an
empty byte input yields an empty entry sequence. -/
theorem index_file_from_bytes_behaviour (forbiddenNames : List (List Char))
    (bad : List Nat) (hbad : utf8Decode bad = none) (e : IndexEntry)
    (h : e.WF forbiddenNames) :
    IndexFile.from_bytes forbiddenNames bad = .error .Utf8 ∧
    IndexFile.from_bytes forbiddenNames [] = .ok ⟨[]⟩ ∧
    IndexFile.from_bytes forbiddenNames
        (utf8Encode ((IndexEntry.toJson e).render ++ '\x0d' :: '\x0a' ::
          (IndexEntry.toJson e).render)) = .ok ⟨[e, e]⟩ ∧
    IndexFile.from_bytes forbiddenNames
        (utf8Encode ((IndexEntry.toJson e).render ++ ['\x0a'])) = .ok ⟨[e]⟩ ∧
    IndexFile.from_bytes forbiddenNames
        (utf8Encode ((IndexEntry.toJson e).render ++ ['\x0a', '\x0a'])) =
      .error .Json := by
  obtain ⟨fs, hfs⟩ : ∃ fs, IndexEntry.toJson e = .obj fs := ⟨_, rfl⟩
  have hnn : '\x0a' ∉ (IndexEntry.toJson e).render := render_no_nl _
  have hne : (IndexEntry.toJson e).render ≠ [] := render_ne_nil _
  have hcr : (IndexEntry.toJson e).render.getLast? ≠ some '\x0d' := render_last_ne_cr _
  have hel : parseEntryLine forbiddenNames (IndexEntry.toJson e).render = .ok e :=
    parseEntryLine_render forbiddenNames e h
  refine ⟨?_, rfl, ?_, ?_, ?_⟩
  · unfold IndexFile.from_bytes
    rw [hbad]
  · -- one CRLF separator between two rendered entries
    have h1 : splitNl ((IndexEntry.toJson e).render ++ '\x0d' :: '\x0a' ::
        (IndexEntry.toJson e).render) =
        ((IndexEntry.toJson e).render ++ ['\x0d']) :: [(IndexEntry.toJson e).render] := by
      rw [show (IndexEntry.toJson e).render ++ '\x0d' :: '\x0a' ::
          (IndexEntry.toJson e).render =
          ((IndexEntry.toJson e).render ++ ['\x0d']) ++ '\x0a' ::
            (IndexEntry.toJson e).render by simp]
      rw [splitNl_append _ _ (by
        intro hmem
        rcases List.mem_append.mp hmem with hm | hm
        · exact hnn hm
        · rw [List.mem_singleton] at hm
          exact absurd hm (by decide))]
      rw [splitNl_no_nl _ hnn]
    have hrl : rustLines ((IndexEntry.toJson e).render ++ '\x0d' :: '\x0a' ::
        (IndexEntry.toJson e).render) =
        [(IndexEntry.toJson e).render, (IndexEntry.toJson e).render] := by
      unfold rustLines
      rw [h1]
      rw [show (((IndexEntry.toJson e).render ++ ['\x0d']) ::
          [(IndexEntry.toJson e).render]).getLast? = some (IndexEntry.toJson e).render
        from rfl]
      rw [if_neg (by
        intro hsome
        rw [Option.some.injEq] at hsome
        exact hne hsome)]
      rw [List.map_cons, List.map_cons, List.map_nil]
      rw [show stripCrEnd ((IndexEntry.toJson e).render ++ ['\x0d']) =
          (IndexEntry.toJson e).render by
        unfold stripCrEnd
        rw [List.getLast?_concat]
        exact List.dropLast_concat]
      rw [stripCrEnd_of_ne _ hcr]
    unfold IndexFile.from_bytes
    rw [utf8Decode_encode]
    simp only [hrl, collectEntries, hel]
  · -- a single trailing newline is dropped by lines()
    have h1 : splitNl ((IndexEntry.toJson e).render ++ ['\x0a']) =
        [(IndexEntry.toJson e).render, []] := by
      rw [show (IndexEntry.toJson e).render ++ ['\x0a'] =
        (IndexEntry.toJson e).render ++ '\x0a' :: [] from rfl]
      rw [splitNl_append _ _ hnn]
      rfl
    have hrl : rustLines ((IndexEntry.toJson e).render ++ ['\x0a']) =
        [(IndexEntry.toJson e).render] := by
      unfold rustLines
      rw [h1]
      rw [show ([(IndexEntry.toJson e).render, []] :
          List (List Char)).getLast? = some [] from rfl]
      rw [if_pos rfl]
      rw [show ([(IndexEntry.toJson e).render, []] : List (List Char)).dropLast =
        [(IndexEntry.toJson e).render] from rfl]
      rw [List.map_cons, List.map_nil]
      rw [stripCrEnd_of_ne _ hcr]
    unfold IndexFile.from_bytes
    rw [utf8Decode_encode]
    simp only [hrl, collectEntries, hel]
  · -- an empty line between entries (or a doubled final newline) is parsed and fails
    have h1 : splitNl ((IndexEntry.toJson e).render ++ ['\x0a', '\x0a']) =
        [(IndexEntry.toJson e).render, [], []] := by
      rw [show (IndexEntry.toJson e).render ++ ['\x0a', '\x0a'] =
        (IndexEntry.toJson e).render ++ '\x0a' :: ['\x0a'] from rfl]
      rw [splitNl_append _ _ hnn]
      rfl
    have hrl : rustLines ((IndexEntry.toJson e).render ++ ['\x0a', '\x0a']) =
        [(IndexEntry.toJson e).render, []] := by
      unfold rustLines
      rw [h1]
      rw [show ([(IndexEntry.toJson e).render, [], []] :
          List (List Char)).getLast? = some [] from rfl]
      rw [if_pos rfl]
      rw [show ([(IndexEntry.toJson e).render, [], []] : List (List Char)).dropLast =
        [(IndexEntry.toJson e).render, []] from rfl]
      rw [List.map_cons, List.map_cons, List.map_nil]
      rw [stripCrEnd_of_ne _ hcr]
      rfl
    unfold IndexFile.from_bytes
    rw [utf8Decode_encode]
    simp only [hrl, collectEntries, hel]
    rfl

theorem index_file_from_bytes_behaviour_witness :
    utf8Decode [255] = none ∧ IndexEntry.WF [] rtEntry ∧
      (IndexFile.from_bytes [] [255] = .error .Utf8 ∧
        IndexFile.from_bytes [] [] = .ok ⟨[]⟩ ∧
        IndexFile.from_bytes []
            (utf8Encode ((IndexEntry.toJson rtEntry).render ++ '\x0d' :: '\x0a' ::
              (IndexEntry.toJson rtEntry).render)) = .ok ⟨[rtEntry, rtEntry]⟩ ∧
        IndexFile.from_bytes []
            (utf8Encode ((IndexEntry.toJson rtEntry).render ++ ['\x0a'])) =
          .ok ⟨[rtEntry]⟩ ∧
        IndexFile.from_bytes []
            (utf8Encode ((IndexEntry.toJson rtEntry).render ++ ['\x0a', '\x0a'])) =
          .error .Json) :=
  ⟨by decide, by decide,
    index_file_from_bytes_behaviour [] [255] (by decide) rtEntry (by decide)⟩

/-- **C10.** For every request path whose components `CrateName::from_index_path`
rejects — for any reason — the index-fetch endpoint `get_index_file` responds with
`ErrorResponse::not_found`: status `404` (never `400`) with an empty `errors`
list, the storage state unchanged, and no storage operation attempted. -/
theorem index_fetch_invalid_path_404 (forbiddenNames : List (List Char))
    (faults : Faults) (st : StorageState) (path : List PathComponent)
    (err : IndexPathError)
    (h : CrateName.from_index_path forbiddenNames path = .error err) :
    (get_index_file (.ok ()) forbiddenNames faults st path).result =
        .error (ErrorResponse.from_status 404) ∧
      (ErrorResponse.from_status 404).errors = [] ∧
      (get_index_file (.ok ()) forbiddenNames faults st path).state = st ∧
      (get_index_file (.ok ()) forbiddenNames faults st path).trace = [] := by
  unfold get_index_file
  simp only [h]
  exact ⟨by trivial, by trivial, by trivial, by trivial⟩

theorem index_fetch_invalid_path_404_witness :
    CrateName.from_index_path [] [PathComponent.normal ['a']] =
        .error IndexPathError.TooFewComponents ∧
      ((get_index_file (.ok ()) [] Faults.none emptyStorage
            [PathComponent.normal ['a']]).result =
          .error (ErrorResponse.from_status 404) ∧
        (ErrorResponse.from_status 404).errors = [] ∧
        (get_index_file (.ok ()) [] Faults.none emptyStorage
            [PathComponent.normal ['a']]).state = emptyStorage ∧
        (get_index_file (.ok ()) [] Faults.none emptyStorage
            [PathComponent.normal ['a']]).trace = []) :=
  ⟨by decide,
    index_fetch_invalid_path_404 [] Faults.none emptyStorage [PathComponent.normal ['a']]
      IndexPathError.TooFewComponents (by decide)⟩

end Quartermaster
